import Mathlib

/-!
Verification development for the `deno_net` standard-library repository.

The YAML-like encoder/decoder (`src/encoding/yaml`) ships only its test files
in this tree, so the loader/dumper pipeline itself is modelled from the
specification (scanner, parser, constructor, dumper, error marks, options).
The collection helper `union` (`src/collections/union.ts`) and the decoder
combinator `isMaybe` (`src/type_decoders/is_maybe.ts`) are embedded directly
from their sources.

Strings are manipulated as `List Char`; `String` appears only at the outer
interfaces.  All recursive functions are written with structural recursion
(fuel where the recursion is not structural) so that every definition
evaluates by kernel reduction.
-/

namespace DenoStd

abbrev Chars := List Char

/-- Decimal digit character for a digit value; values above nine clamp to `'9'`. -/
def digitChar : Nat → Char
  | 0 => '0' | 1 => '1' | 2 => '2' | 3 => '3' | 4 => '4'
  | 5 => '5' | 6 => '6' | 7 => '7' | 8 => '8' | _ => '9'

def isDigitChar (c : Char) : Bool := 48 ≤ c.toNat && c.toNat ≤ 57

def digitVal (c : Char) : Nat := c.toNat - 48

/-- Decimal digits of a natural number, most significant first; fueled so that
evaluation is plain structural recursion. -/
def natDigitsGo : Nat → Nat → Chars
  | 0, _ => []
  | fuel + 1, n =>
    if n < 10 then [digitChar n] else natDigitsGo fuel (n / 10) ++ [digitChar (n % 10)]

def natDigits (n : Nat) : Chars := natDigitsGo (n + 1) n

def digitsToNat (ds : Chars) : Nat := ds.foldl (fun a c => a * 10 + digitVal c) 0

/-- Signed decimal representation of an integer. -/
def intRepr (n : Int) : Chars :=
  if n < 0 then '-' :: natDigits n.natAbs else natDigits n.toNat

def isIntStr (s : Chars) : Bool :=
  match s with
  | [] => false
  | c :: cs => if c = '-' then !cs.isEmpty && cs.all isDigitChar else (c :: cs).all isDigitChar

def parseIntChars (s : Chars) : Int :=
  match s with
  | [] => 0
  | c :: cs => if c = '-' then -(digitsToNat cs : Int) else (digitsToNat (c :: cs) : Int)

/-- Modelled from the spec: the native value domain of the default ("safe")
schema (§3, §8): null, boolean, number, string, ordered list, ordered
string-keyed mapping.  Numbers are modelled as integers. -/
inductive YValue where
  | nullV : YValue
  | boolV : Bool → YValue
  | numV : Int → YValue
  | strV : String → YValue
  | listV : List YValue → YValue
  | mapV : List (String × YValue) → YValue
deriving Inhabited

/-- Characters that are structurally ambiguous with indicators and therefore
forbidden in a plain (unquoted) scalar rendering (spec §4.4). -/
def badPlainChar (c : Char) : Bool :=
  c == ':' || c == '#' || c == ',' || c == '[' || c == ']' ||
  c == '\x7b' || c == '\x7d' || c == '&' || c == '*' || c == '!' ||
  c == '|' || c == '>' || c == '\'' || c == '\"' || c == '%' ||
  c == '@' || c == '`' || decide (c.toNat < 32)

def nullChars : Chars := ['n', 'u', 'l', 'l']

def trueChars : Chars := ['t', 'r', 'u', 'e']

def falseChars : Chars := ['f', 'a', 'l', 's', 'e']

def emptyListChars : Chars := ['[', ']']

def emptyMapChars : Chars := ['\x7b', '\x7d']

def isNullStr (s : Chars) : Bool := s.isEmpty || s == nullChars || s == ['~']

def isBoolStr (s : Chars) : Bool := s == trueChars || s == falseChars

/-- A plain rendering is legal only when re-scanning the text resolves back to
the string type and no character is ambiguous with an indicator (spec §4.4). -/
def plainOk (s : Chars) : Bool :=
  match s with
  | [] => false
  | c :: cs =>
    !badPlainChar c && !(c == '-') && !(c == '?') && !(c == ' ') &&
    cs.all (fun d => !badPlainChar d) &&
    !isNullStr (c :: cs) && !isBoolStr (c :: cs) && !isIntStr (c :: cs)

/-- Modelled from the spec: implicit resolution of an untagged plain scalar by
ordered predicate matching over the default schema (§4.3): null, boolean,
integer, then the fallback string type. -/
def resolveScalar (s : Chars) : YValue :=
  if isNullStr s then .nullV
  else if s == trueChars then .boolV true
  else if s == falseChars then .boolV false
  else if isIntStr s then .numV (parseIntChars s)
  else .strV (String.mk s)

/-- Single-quoted body escaping: an apostrophe is doubled. -/
def sqEscape : Chars → Chars
  | [] => []
  | '\'' :: cs => '\'' :: '\'' :: sqEscape cs
  | c :: cs => c :: sqEscape cs

def sqChars (s : Chars) : Chars := '\'' :: (sqEscape s ++ ['\''])

def hexDigitChar (k : Nat) : Char :=
  if k < 10 then digitChar k
  else if k = 10 then 'a' else if k = 11 then 'b' else if k = 12 then 'c'
  else if k = 13 then 'd' else if k = 14 then 'e' else 'f'

def isHexChar (c : Char) : Bool := isDigitChar c || ('a' ≤ c && c ≤ 'f')

def hexVal (c : Char) : Nat := if isDigitChar c then digitVal c else c.toNat - 87

/-- Double-quoted escaping of one character (spec §4.1: quoted-scalar escape
sequences are decoded at scan time; the dumper emits them). -/
def dqEscapeChar (c : Char) : Chars :=
  if c = '\"' then ['\\', '\"']
  else if c = '\\' then ['\\', '\\']
  else if c = '\n' then ['\\', 'n']
  else if c = '\t' then ['\\', 't']
  else if c.toNat < 32 then ['\\', 'x', hexDigitChar (c.toNat / 16), hexDigitChar (c.toNat % 16)]
  else [c]

def dqEscape : Chars → Chars
  | [] => []
  | c :: cs => dqEscapeChar c ++ dqEscape cs

def dqChars (s : Chars) : Chars := '\"' :: (dqEscape s ++ ['\"'])

/-- Double quotes are needed only when some character requires a backslash
escape; otherwise the single-quoted style is preferred (spec §4.4). -/
def needsDQ (s : Chars) : Bool := s.any (fun c => decide (c.toNat < 32))

def quoteChars (s : Chars) : Chars := if needsDQ s then dqChars s else sqChars s

/-- Textual rendering of an inline (scalar or empty-collection) value.
Empty collections are downgraded to flow style (spec §4.4). -/
def scalarChars : YValue → Chars
  | .nullV => nullChars
  | .boolV true => trueChars
  | .boolV false => falseChars
  | .numV n => intRepr n
  | .strV s => if plainOk s.data then s.data else quoteChars s.data
  | .listV _ => emptyListChars
  | .mapV _ => emptyMapChars

/-- Inline values are rendered on the owning line; nonempty collections open a
nested block. -/
def isInline : YValue → Bool
  | .listV xs => xs.isEmpty
  | .mapV ps => ps.isEmpty
  | _ => true

/-- Error kinds raised by the model loader (spec §7 taxonomy). -/
inductive ErrKind where
  | scannerKind | parserKind | depthKind | dupKeyKind | fuelKind
deriving DecidableEq

/-- A parse-stage fault: kind, human reason, and the offending line's text. -/
structure PErr where
  kind : ErrKind
  reason : String
  snippet : Chars
deriving DecidableEq

/-- Scanner for a single-quoted scalar body; returns the decoded text and the
rest of the line after the closing quote, or `none` when unterminated. -/
def parseSQGo : Chars → Chars → Option (Chars × Chars)
  | [], _ => none
  | c :: rest, acc =>
    if c = '\'' then
      match rest with
      | c2 :: rest2 =>
        if c2 = '\'' then parseSQGo rest2 ('\'' :: acc) else some (acc.reverse, rest)
      | [] => some (acc.reverse, [])
    else parseSQGo rest (c :: acc)

/-- Scanner for a double-quoted scalar body: decodes escape sequences and
returns the rest of the line, `none` on an invalid escape or unterminated
quote. -/
def parseDQGo : Chars → Chars → Option (Chars × Chars)
  | [], _ => none
  | c :: rest, acc =>
    if c = '\"' then some (acc.reverse, rest)
    else if c = '\\' then
      match rest with
      | [] => none
      | e :: r =>
        if e = 'n' then parseDQGo r ('\n' :: acc)
        else if e = 't' then parseDQGo r ('\t' :: acc)
        else if e = '\"' then parseDQGo r ('\"' :: acc)
        else if e = '\\' then parseDQGo r ('\\' :: acc)
        else if e = 'x' then
          match r with
          | h1 :: h2 :: r2 =>
            if isHexChar h1 && isHexChar h2 then
              parseDQGo r2 (Char.ofNat (16 * hexVal h1 + hexVal h2) :: acc)
            else none
          | _ => none
        else none
    else parseDQGo rest (c :: acc)

/-- Modelled from the spec: parsing of a value in scalar position on a line
(quoted scalar, empty flow collection, or implicitly resolved plain scalar). -/
def parseScalarPos (txt : Chars) : Except PErr YValue :=
  match txt with
  | [] => .error ⟨.parserKind, "unexpected empty scalar", []⟩
  | c :: rest =>
    if c = '\'' then
      match parseSQGo rest [] with
      | some (s, rem) =>
        if rem.isEmpty then .ok (.strV (String.mk s))
        else .error ⟨.scannerKind, "unexpected content after single quoted scalar", txt⟩
      | none =>
        .error ⟨.scannerKind, "unexpected end of the stream within a single quoted scalar", txt⟩
    else if c = '\"' then
      match parseDQGo rest [] with
      | some (s, rem) =>
        if rem.isEmpty then .ok (.strV (String.mk s))
        else .error ⟨.scannerKind, "unexpected content after double quoted scalar", txt⟩
      | none =>
        .error ⟨.scannerKind, "unexpected end of the stream within a double quoted scalar", txt⟩
    else if txt == emptyListChars then .ok (.listV [])
    else if txt == emptyMapChars then .ok (.mapV [])
    else if c == '[' || c == '\x7b' then
      .error ⟨.scannerKind, "unsupported flow collection", txt⟩
    else .ok (resolveScalar txt)

/-- Split raw text into lines at newline characters; a trailing newline closes
the final line rather than opening an extra empty one. -/
def splitLinesGo : Chars → Chars → List Chars
  | [], cur => if cur.isEmpty then [] else [cur.reverse]
  | c :: rest, cur =>
    if c = '\n' then cur.reverse :: splitLinesGo rest []
    else splitLinesGo rest (c :: cur)

def splitRawLines (cs : Chars) : List Chars := splitLinesGo cs []

/-- Render a list of lines, each terminated by a newline. -/
def joinLines (ls : List Chars) : Chars := ls.foldr (fun l acc => l ++ '\n' :: acc) []

/-- Number of leading spaces: the indentation of a raw line. -/
def countIndent : Chars → Nat
  | c :: rest => if c = ' ' then countIndent rest + 1 else 0
  | [] => 0

/-- The raw line with its indentation removed. -/
def dropIndent : Chars → Chars
  | c :: rest => if c = ' ' then dropIndent rest else c :: rest
  | [] => []

/-- A parsed line: indentation width paired with the line's content. -/
def toLine (l : Chars) : Nat × Chars := (countIndent l, dropIndent l)

def mkRaw (p : Nat × Chars) : Chars := List.replicate p.1 ' ' ++ p.2

/-- Text to parsed lines: split on newlines, then strip and record indentation. -/
def toLines (cs : Chars) : List (Nat × Chars) := (splitRawLines cs).map toLine

/-- Parsed lines back to raw text. -/
def renderLines (ls : List (Nat × Chars)) : Chars := joinLines (ls.map mkRaw)

/-- A line the dumper can emit: content free of newlines and not beginning
with a space (so splitting and indentation counting invert rendering). -/
def goodLine (p : Nat × Chars) : Prop :=
  ('\n' : Char) ∉ p.2 ∧ p.2.head? ≠ some ' '

/-- Modelled from the spec: a source position attached to every error
(`{line, column, bufferSnippet}`, §6). -/
structure Mark where
  line : Nat
  column : Nat
  bufferSnippet : String
deriving DecidableEq

/-- Modelled from the spec: the error value surfaced to callers
(`{name: "FormatException", reason, mark, message}`, §6). -/
structure FormatException where
  name : String
  reason : String
  mark : Mark
  message : String
deriving DecidableEq

/-- Modelled from the spec: the narrow class of recoverable anomalies routed
through `onWarning` (§7). -/
inductive WarnKind where
  | duplicateKey
  | deprecatedType
deriving DecidableEq

structure Warning where
  kind : WarnKind
  detail : String
deriving DecidableEq

/-- A load failure: either a parse-stage fault (later wrapped into a
`FormatException` with a mark) or an exception raised by the warning hook,
which propagates as-is. -/
inductive LoadErr where
  | perr : PErr → LoadErr
  | hookErr : FormatException → LoadErr

/-- Modelled from the spec: recognized load options (§6): `filename` feeds
error messages, `maxDepth` is the §5 resource guard, `lenient` requests the §7
leniency for recoverable anomalies, `onWarning` is the warning hook. -/
structure LoadOpts where
  filename : Option String := none
  maxDepth : Option Nat := none
  lenient : Bool := true
  onWarning : Option (Warning → Except FormatException Unit) := none

/-- Modelled from the spec: the dumper's `sortKeys` option (§4.4, §6):
preserve insertion order, sort lexicographically, or apply a caller-supplied
two-argument comparator. -/
inductive SortKeys where
  | insertion
  | lex
  | custom (cmp : String → String → Int)

/-- Modelled from the spec: the subset of DumpState the claims exercise (§3):
key ordering and the §5 depth guard. -/
structure DumpState where
  sortKeys : SortKeys := .insertion
  maxDepth : Option Nat := none

/-- Stable insertion of one pair into an already-ordered list: the new pair
goes after every pair the comparator does not place strictly later, so equal
keys keep their original relative order (no secondary tie-break). -/
def insertPairCmp (cmp : String → String → Int) (x : String × YValue) :
    List (String × YValue) → List (String × YValue)
  | [] => [x]
  | y :: ys => if cmp y.1 x.1 ≤ 0 then y :: insertPairCmp cmp x ys else x :: y :: ys

def sortPairsCmp (cmp : String → String → Int) (ps : List (String × YValue)) :
    List (String × YValue) :=
  ps.foldl (fun acc x => insertPairCmp cmp x acc) []

/-- Lexicographic comparison of character lists by code point. -/
def charsLt : Chars → Chars → Bool
  | [], [] => false
  | [], _ :: _ => true
  | _ :: _, [] => false
  | a :: as, b :: bs => if a < b then true else if b < a then false else charsLt as bs

/-- Default string comparison, as used for `sortKeys: true`. -/
def lexCmp (a b : String) : Int :=
  if charsLt a.data b.data then -1 else if charsLt b.data a.data then 1 else 0

def sortPairs (sk : SortKeys) (ps : List (String × YValue)) : List (String × YValue) :=
  match sk with
  | .insertion => ps
  | .lex => sortPairsCmp lexCmp ps
  | .custom cmp => sortPairsCmp cmp ps

mutual
/-- Structural size of a value, used as fuel for the fueled traversals. -/
def ysize : YValue → Nat
  | .nullV => 1
  | .boolV _ => 1
  | .numV _ => 1
  | .strV _ => 1
  | .listV xs => 1 + ysizeL xs
  | .mapV ps => 1 + ysizeP ps
def ysizeL : List YValue → Nat
  | [] => 0
  | x :: xs => ysize x + ysizeL xs
def ysizeP : List (String × YValue) → Nat
  | [] => 0
  | p :: ps => ysize p.2 + ysizeP ps
end

/-- A mapping key is rendered exactly like a string scalar. -/
def keyChars (k : String) : Chars := scalarChars (.strV k)

/-- Work items of the dumper: a value in block position, the remaining items
of a block sequence, or the remaining pairs of a block mapping. -/
inductive DumpJob where
  | one : Nat → YValue → DumpJob
  | seq : Nat → List YValue → DumpJob
  | pairs : Nat → List (String × YValue) → DumpJob

/-- Modelled from the spec: the dumper's depth-first rendering into
block-styled lines (§4.4).  Inline (scalar or empty-collection) values are
rendered on the owning line; nonempty collections open a nested block two
columns deeper; mapping keys are emitted in the order given by the `sortKeys`
option.  Fueled so the recursion is structural. -/
def dumpJobF (sk : SortKeys) : Nat → DumpJob → List (Nat × Chars)
  | 0, _ => []
  | fuel + 1, job =>
    match job with
    | .one i v =>
      if isInline v then [(i, scalarChars v)]
      else
        match v with
        | .listV xs => dumpJobF sk fuel (.seq i xs)
        | .mapV ps => dumpJobF sk fuel (.pairs i (sortPairs sk ps))
        | w => [(i, scalarChars w)]
    | .seq _ [] => []
    | .seq i (x :: xs) =>
      (if isInline x then [(i, '-' :: ' ' :: scalarChars x)]
       else (i, ['-']) :: dumpJobF sk fuel (.one (i + 2) x)) ++
      dumpJobF sk fuel (.seq i xs)
    | .pairs _ [] => []
    | .pairs i ((k, v) :: ps) =>
      (if isInline v then [(i, keyChars k ++ ':' :: ' ' :: scalarChars v)]
       else (i, keyChars k ++ [':']) :: dumpJobF sk fuel (.one (i + 2) v)) ++
      dumpJobF sk fuel (.pairs i ps)

mutual
/-- Modelled from the spec: nesting depth of a value (§5): a scalar or empty
collection is depth one, a nonempty collection one more than its deepest
child. -/
def vDepth : YValue → Nat
  | .listV (x :: xs) => 1 + vDepthL (x :: xs)
  | .mapV (p :: ps) => 1 + vDepthP (p :: ps)
  | _ => 1
def vDepthL : List YValue → Nat
  | [] => 0
  | x :: xs => max (vDepth x) (vDepthL xs)
def vDepthP : List (String × YValue) → Nat
  | [] => 0
  | p :: ps => max (vDepth p.2) (vDepthP ps)
end

/-- Rendering without the guard: dump to lines in key order, then join. -/
def dumpText (st : DumpState) (v : YValue) : String :=
  String.mk (renderLines (dumpJobF st.sortKeys (2 * ysize v + 2) (.one 0 v)))

/-- Modelled from the spec: `dump(value, options) -> text` (§4.4, §6), guarded
by the explicit maximum-depth check of §5. -/
def dump (st : DumpState) (v : YValue) : Except FormatException String :=
  match st.maxDepth with
  | some m =>
    if m < vDepth v then
      .error ⟨"FormatException", "maximum dump depth exceeded", ⟨0, 0, ""⟩,
        "DepthExceededError: maximum dump depth exceeded"⟩
    else .ok (dumpText st v)
  | none => .ok (dumpText st v)

/-- A mapping key node is converted to its string representation (keys are
string-representable values). -/
def keyToString : YValue → Option String
  | .strV s => some s
  | .nullV => some "null"
  | .boolV true => some "true"
  | .boolV false => some "false"
  | .numV n => some (String.mk (intRepr n))
  | _ => none

/-- Split a mapping line into its key and the text after the colon; `none`
when the line carries no key/colon structure. -/
def parseKeySplit (txt : Chars) : Option (String × Chars) :=
  match txt with
  | [] => none
  | c :: rest =>
    if c = '\'' then
      match parseSQGo rest [] with
      | some (s, rem) =>
        match rem with
        | ':' :: tail => some (String.mk s, tail)
        | _ => none
      | none => none
    else if c = '\"' then
      match parseDQGo rest [] with
      | some (s, rem) =>
        match rem with
        | ':' :: tail => some (String.mk s, tail)
        | _ => none
      | none => none
    else
      match txt.dropWhile (fun d => !(d == ':')) with
      | ':' :: tail =>
        match keyToString (resolveScalar (txt.takeWhile (fun d => !(d == ':')))) with
        | some ks => some (ks, tail)
        | none => none
      | _ => none

/-- Recognize a block sequence entry: `some none` for a bare dash, `some
(some v)` for a dash followed by a space and inline text. -/
def seqItemSplit (txt : Chars) : Option (Option Chars) :=
  match txt with
  | [] => none
  | c :: rest =>
    if c = '-' then
      match rest with
      | [] => some none
      | d :: vtxt => if d = ' ' then some (some vtxt) else none
    else none

/-- Modelled from the spec: folded-scalar line joining (§4.1): an embedded
single line break between two non-blank lines becomes a single space; a blank
line is preserved as a literal newline. -/
def foldGo : List Chars → Chars
  | [] => []
  | [] :: rest => '\n' :: foldGo rest
  | (c :: cs) :: rest =>
    (c :: cs) ++ (match rest with
      | (_ :: _) :: _ => ' ' :: foldGo rest
      | _ => foldGo rest)

def dropTrailingBlanks (ls : List Chars) : List Chars :=
  (ls.reverse.dropWhile List.isEmpty).reverse

/-- Default block chomping: trailing blank lines are clipped to one final
newline (§4.1). -/
def foldBody (ls : List Chars) : Chars := foldGo (dropTrailingBlanks ls) ++ ['\n']

/-- The §5 depth guard: a value constructed at nesting level `lvl` is refused
when the configured maximum is exceeded. -/
def tooDeep (opts : LoadOpts) (lvl : Nat) : Bool :=
  match opts.maxDepth with
  | some m => decide (m < lvl)
  | none => false

/-- Replace the value stored under an existing key, keeping its position
(duplicate keys overwrite the earlier value, §4.2). -/
def overwritePair (acc : List (String × YValue)) (k : String) (v : YValue) :
    List (String × YValue) :=
  acc.map (fun p => if p.1 == k then (k, v) else p)

/-- Modelled from the spec: duplicate-mapping-key handling (§4.2, §7).  Under
leniency the anomaly is routed to the `onWarning` hook when one is supplied
(a raising hook makes it fatal); without leniency it is fatal. -/
def addPair (opts : LoadOpts) (acc : List (String × YValue)) (k : String) (v : YValue)
    (ws : List Warning) (txt : Chars) :
    Except LoadErr (List (String × YValue) × List Warning) :=
  if acc.any (fun p => p.1 == k) then
    if opts.lenient then
      match opts.onWarning with
      | some hook =>
        match hook ⟨.duplicateKey, k⟩ with
        | .ok _ => .ok (overwritePair acc k v, ws ++ [⟨.duplicateKey, k⟩])
        | .error e => .error (.hookErr e)
      | none => .ok (overwritePair acc k v, ws)
    else .error (.perr ⟨.dupKeyKind, "duplicated mapping key", txt⟩)
  else .ok ((k, v) :: acc, ws)

/-- Work items of the block parser: a block whose first line sits at the given
indent, or the remaining entries of a sequence or mapping in progress.  The
first number is the §5 nesting level of the value being built. -/
inductive PJob where
  | block : Nat → Nat → List (Nat × Chars) → PJob
  | seqItems : Nat → Nat → List (Nat × Chars) → List YValue → PJob
  | mapItems : Nat → Nat → List (Nat × Chars) → List (String × YValue) → PJob

/-- Modelled from the spec: the recursive-descent block parser and constructor
(§4.2, §4.3) over indentation-classified lines, producing native values
directly.  Returns the value, the unconsumed lines (first line less indented
than the block), and the warnings routed to the hook so far.  Fueled so the
recursion is structural; the fuel is an internal bound, not a semantic
limit. -/
def parseF (opts : LoadOpts) : Nat → PJob → List Warning →
    Except LoadErr (YValue × List (Nat × Chars) × List Warning)
  | 0, _, _ => .error (.perr ⟨.fuelKind, "internal: out of fuel", []⟩)
  | fuel + 1, .block lvl i lines, ws =>
    if tooDeep opts lvl then
      .error (.perr ⟨.depthKind, "maximum load depth exceeded",
        (lines.headD (0, [])).2⟩)
    else
      match lines with
      | [] => .ok (.nullV, [], ws)
      | (_, txt) :: rest =>
        match seqItemSplit txt with
        | some _ => parseF opts fuel (.seqItems lvl i lines []) ws
        | none =>
          match parseKeySplit txt with
          | some _ => parseF opts fuel (.mapItems lvl i lines []) ws
          | none =>
            match parseScalarPos txt with
            | .ok v => .ok (v, rest, ws)
            | .error e => .error (.perr e)
  | fuel + 1, .seqItems lvl i lines acc, ws =>
    match lines with
    | [] => .ok (.listV acc.reverse, [], ws)
    | (j, txt) :: rest =>
      if j < i then .ok (.listV acc.reverse, lines, ws)
      else if i < j then
        .error (.perr ⟨.parserKind, "bad indentation of a sequence entry", txt⟩)
      else
        match seqItemSplit txt with
        | none => .error (.perr ⟨.parserKind, "expected a sequence entry", txt⟩)
        | some none =>
          match rest with
          | (j2, _) :: _ =>
            if i < j2 then
              match parseF opts fuel (.block (lvl + 1) j2 rest) ws with
              | .ok (v, rem, ws2) => parseF opts fuel (.seqItems lvl i rem (v :: acc)) ws2
              | .error e => .error e
            else if tooDeep opts (lvl + 1) then
              .error (.perr ⟨.depthKind, "maximum load depth exceeded", txt⟩)
            else parseF opts fuel (.seqItems lvl i rest (.nullV :: acc)) ws
          | [] =>
            if tooDeep opts (lvl + 1) then
              .error (.perr ⟨.depthKind, "maximum load depth exceeded", txt⟩)
            else .ok (.listV (YValue.nullV :: acc).reverse, [], ws)
        | some (some vtxt) =>
          if tooDeep opts (lvl + 1) then
            .error (.perr ⟨.depthKind, "maximum load depth exceeded", txt⟩)
          else
            match parseScalarPos vtxt with
            | .ok v => parseF opts fuel (.seqItems lvl i rest (v :: acc)) ws
            | .error e => .error (.perr e)
  | fuel + 1, .mapItems lvl i lines acc, ws =>
    match lines with
    | [] => .ok (.mapV acc.reverse, [], ws)
    | (j, txt) :: rest =>
      if j < i then .ok (.mapV acc.reverse, lines, ws)
      else if i < j then
        .error (.perr ⟨.parserKind, "bad indentation of a mapping entry", txt⟩)
      else
        match parseKeySplit txt with
        | none => .error (.perr ⟨.parserKind, "expected a mapping key", txt⟩)
        | some (k, tail) =>
          match tail with
          | [] =>
            match rest with
            | (j2, _) :: _ =>
              if i < j2 then
                match parseF opts fuel (.block (lvl + 1) j2 rest) ws with
                | .ok (v, rem, ws2) =>
                  match addPair opts acc k v ws2 txt with
                  | .ok (acc2, ws3) => parseF opts fuel (.mapItems lvl i rem acc2) ws3
                  | .error e => .error e
                | .error e => .error e
              else if tooDeep opts (lvl + 1) then
                .error (.perr ⟨.depthKind, "maximum load depth exceeded", txt⟩)
              else
                match addPair opts acc k .nullV ws txt with
                | .ok (acc2, ws2) => parseF opts fuel (.mapItems lvl i rest acc2) ws2
                | .error e => .error e
            | [] =>
              if tooDeep opts (lvl + 1) then
                .error (.perr ⟨.depthKind, "maximum load depth exceeded", txt⟩)
              else
                match addPair opts acc k .nullV ws txt with
                | .ok (acc2, ws2) => .ok (.mapV acc2.reverse, [], ws2)
                | .error e => .error e
          | ' ' :: vtxt =>
            if tooDeep opts (lvl + 1) then
              .error (.perr ⟨.depthKind, "maximum load depth exceeded", txt⟩)
            else if vtxt == ['>'] then
              let body := rest.takeWhile (fun p => p.2.isEmpty || decide (i < p.1))
              let rem := rest.dropWhile (fun p => p.2.isEmpty || decide (i < p.1))
              match addPair opts acc k (.strV (String.mk (foldBody (body.map Prod.snd)))) ws txt with
              | .ok (acc2, ws2) => parseF opts fuel (.mapItems lvl i rem acc2) ws2
              | .error e => .error e
            else
              match parseScalarPos vtxt with
              | .ok v =>
                match addPair opts acc k v ws txt with
                | .ok (acc2, ws2) => parseF opts fuel (.mapItems lvl i rest acc2) ws2
                | .error e => .error e
              | .error e => .error (.perr e)
          | _ => .error (.perr ⟨.parserKind, "expected a space after the colon", txt⟩)

/-- Fuel that always suffices for the block parser on the given lines. -/
def parseFuel (lines : List (Nat × Chars)) : Nat := 2 * lines.length + 4

/-- Parse one document from classified lines (tab-indentation scan first,
then the block grammar; the document must be fully consumed). -/
def loadCore (opts : LoadOpts) (lines : List (Nat × Chars)) :
    Except LoadErr (YValue × List Warning) :=
  match lines.find? (fun p => p.2.headD 'x' == '\t') with
  | some p => .error (.perr ⟨.scannerKind, "tab characters must not be used in indentation", p.2⟩)
  | none =>
    match lines with
    | [] => .ok (.nullV, [])
    | (j, _) :: _ =>
      match parseF opts (parseFuel lines) (.block 1 j lines) [] with
      | .ok (v, [], ws) => .ok (v, ws)
      | .ok (_, _ :: _, _) =>
        .error (.perr ⟨.parserKind, "unexpected content after the document", []⟩)
      | .error e => .error e

/-- Wrap a parse fault into the caller-facing error value (§6): name
`FormatException`, a mark locating the offending line, and a message that
references the configured file name. -/
def mkFormatException (opts : LoadOpts) (lines : List (Nat × Chars)) (e : PErr) :
    FormatException :=
  let idx := lines.findIdx (fun p => p.2 == e.snippet)
  { name := "FormatException"
    reason := e.reason
    mark := ⟨idx, 0, String.mk e.snippet⟩
    message := e.reason ++ " in \"" ++ opts.filename.getD "<input>" ++ "\"" }

def loadDocLines (opts : LoadOpts) (lines : List (Nat × Chars)) :
    Except FormatException (YValue × List Warning) :=
  match loadCore opts lines with
  | .ok r => .ok r
  | .error (.perr e) => .error (mkFormatException opts lines e)
  | .error (.hookErr e) => .error e

/-- Modelled from the spec: `load(text, options?) -> value` (§6), surfacing a
`FormatException` on any scanner/parser/constructor fault; also returns the
warnings that were routed to the hook. -/
def load (opts : LoadOpts) (text : String) : Except FormatException (YValue × List Warning) :=
  loadDocLines opts (toLines text.data)

/-- Loading with all options defaulted, keeping only the value. -/
def loadD (text : String) : Except FormatException YValue := (load {} text).map Prod.fst

/-- Split a line stream into documents at `---` markers (§4.2). -/
def splitDocsGo : List (Nat × Chars) → List (Nat × Chars) → List (List (Nat × Chars))
  | [], cur => [cur.reverse]
  | p :: rest, cur =>
    if p.2 == ['-', '-', '-'] && p.1 == 0 then cur.reverse :: splitDocsGo rest []
    else splitDocsGo rest (p :: cur)

def splitDocs (lines : List (Nat × Chars)) : List (List (Nat × Chars)) :=
  splitDocsGo lines []

/-- Modelled from the spec: the per-document callback loop of `loadAll` (§6):
one callback per document in order, aborting the remaining stream on the
first fault.  The callback is modelled as a state-passing function. -/
def loadAllGo {σ : Type} (opts : LoadOpts) (cb : σ → YValue → σ) :
    List (List (Nat × Chars)) → σ → σ × Option FormatException
  | [], s => (s, none)
  | doc :: docs, s =>
    match loadDocLines opts doc with
    | .ok (v, _) => loadAllGo opts cb docs (cb s v)
    | .error e => (s, some e)

/-- Modelled from the spec: `loadAll(text, perDocumentCallback, options?)`
(§6).  Returns the final callback state and the fault that aborted the
stream, if any. -/
def loadAll {σ : Type} (opts : LoadOpts) (text : String) (cb : σ → YValue → σ) (s0 : σ) :
    σ × Option FormatException :=
  loadAllGo opts cb (splitDocs (toLines text.data)) s0

/-- No-duplicate check on a key list. -/
def nodupStr : List String → Bool
  | [] => true
  | k :: ks => !ks.contains k && nodupStr ks

mutual
/-- Well-formed values: every mapping, recursively, has pairwise-distinct
keys.  This is exactly the image of native objects, whose keys are unique. -/
def wfKeys : YValue → Bool
  | .listV xs => wfKeysL xs
  | .mapV ps => nodupStr (ps.map Prod.fst) && wfKeysP ps
  | _ => true
def wfKeysL : List YValue → Bool
  | [] => true
  | x :: xs => wfKeys x && wfKeysL xs
def wfKeysP : List (String × YValue) → Bool
  | [] => true
  | p :: ps => wfKeys p.2 && wfKeysP ps
end

/-- The §5 guard admits the value under construction at this nesting level. -/
def depthFits (opts : LoadOpts) (lvl : Nat) (v : YValue) : Prop :=
  ∀ m, opts.maxDepth = some m → lvl + vDepth v ≤ m + 1

/-- Content of a line the dumper may emit: nonempty, not starting with a
space or tab, and newline-free. -/
def goodTxt (txt : Chars) : Prop :=
  txt ≠ [] ∧ txt.head? ≠ some ' ' ∧ txt.head? ≠ some '\t' ∧ ('\n' : Char) ∉ txt

/-- The block-inversion property of one value: parsing its dumped lines
followed by any less-indented rest yields the value, the untouched rest, and
the unchanged warnings. -/
def BlockInv (x : YValue) : Prop :=
  ∀ (opts : LoadOpts) (fuel dfuel i lvl : Nat) (rest : List (Nat × Chars)) (ws : List Warning),
    wfKeys x = true →
    depthFits opts lvl x →
    2 * ysize x ≤ dfuel →
    2 * (dumpJobF .insertion dfuel (.one i x)).length + 2 * rest.length + 3 ≤ fuel →
    (∀ p, rest.head? = some p → p.1 < i) →
    parseF opts fuel (.block lvl i (dumpJobF .insertion dfuel (.one i x) ++ rest)) ws =
      .ok (x, rest, ws)

def BlockErr (x : YValue) : Prop :=
  ∀ (opts : LoadOpts) (m fuel dfuel i lvl : Nat) (rest : List (Nat × Chars)) (ws : List Warning),
    opts.maxDepth = some m →
    wfKeys x = true →
    m + 1 < lvl + vDepth x →
    2 * ysize x ≤ dfuel →
    2 * (dumpJobF .insertion dfuel (.one i x)).length + 2 * rest.length + 3 ≤ fuel →
    (∀ p, rest.head? = some p → p.1 < i) →
    ∃ t, parseF opts fuel (.block lvl i (dumpJobF .insertion dfuel (.one i x) ++ rest)) ws =
      .error (.perr ⟨.depthKind, "maximum load depth exceeded", t⟩)

def specOkPrefixVals : List (Except FormatException YValue) → List YValue
  | [] => []
  | .ok v :: rs => v :: specOkPrefixVals rs
  | .error _ :: _ => []

def specFirstFault : List (Except FormatException YValue) → Option FormatException
  | [] => none
  | .ok _ :: rs => specFirstFault rs
  | .error e :: _ => some e

def docResults (opts : LoadOpts) (text : String) : List (Except FormatException YValue) :=
  (splitDocs (toLines text.data)).map (fun d => (loadDocLines opts d).map Prod.fst)

inductive YNode where
  | scalarN (s : String)
  | mapN (anchor : Option String) (ps : List (String × String))
  | aliasN (name : String)

inductive CVal where
  | strC (s : String)
  | refC (i : Nat)
deriving DecidableEq

structure CState where
  heap : List (List (String × String)) := []
  anchors : List (String × Nat) := []

def constructNode (st : CState) : YNode → Except String (CVal × CState)
  | .scalarN s => .ok (.strC s, st)
  | .mapN a ps =>
    .ok (.refC st.heap.length,
      { heap := st.heap ++ [ps],
        anchors := match a with
          | some nm => st.anchors ++ [(nm, st.heap.length)]
          | none => st.anchors })
  | .aliasN nm =>
    match st.anchors.lookup nm with
    | some i => .ok (.refC i, st)
    | none => .error "unidentified alias"

def constructDoc (st : CState) :
    List (String × YNode) → Except String (List (String × CVal) × CState)
  | [] => .ok ([], st)
  | (k, n) :: rest =>
    match constructNode st n with
    | .ok (c, st2) =>
      match constructDoc st2 rest with
      | .ok (cs, st3) => .ok ((k, c) :: cs, st3)
      | .error e => .error e
    | .error e => .error e

def derefC (h : List (List (String × String))) : CVal → Option (List (String × String))
  | .refC i => h.get? i
  | .strC _ => none

def heapSet (h : List (List (String × String))) (i : Nat)
    (c : List (String × String)) : List (List (String × String)) := h.set i c

def setAdd {α : Type} [DecidableEq α] (s : List α) (x : α) : List α :=
  if x ∈ s then s else s ++ [x]

def drainAdd {α : Type} [DecidableEq α] : List α → List α → List α × List α
  | [], s => ([], s)
  | x :: xs, s => drainAdd xs (setAdd s x)

def union {α : Type} [DecidableEq α] (a b : List α) : List α × List α × List α :=
  let r1 := drainAdd a []
  let r2 := drainAdd b r1.2
  (r2.2, r1.1, r2.1)

def specDistinctFrom {α : Type} [DecidableEq α] (seen : List α) : List α → List α
  | [] => []
  | x :: xs =>
    if x ∈ seen then specDistinctFrom seen xs
    else x :: specDistinctFrom (seen ++ [x]) xs

def specDistinct {α : Type} [DecidableEq α] (l : List α) : List α := specDistinctFrom [] l

inductive JSValue where
  | undef
  | nullJ
  | boolJ (b : Bool)
  | numJ (n : Int)
  | strJ (s : String)
deriving DecidableEq

inductive DecoderError where
  | mk (value : JSValue) (message : String) (decoderName : String)
      (child : Option DecoderError)

def DecoderError.message : DecoderError → String
  | .mk _ m _ _ => m

def isExactly (x : JSValue) (v : JSValue) : Except (List DecoderError) JSValue :=
  if v = x then .ok v
  else .error [.mk v "must be exactly the expected value" "isExactly" none]

structure SimpleDecoderOptions where
  decoderName : Option String := none

def setDecoderErrorName (n : String) : DecoderError → DecoderError
  | .mk v m _ c => .mk v m n c

def applyOptionsToDecoderErrors (errs : List DecoderError)
    (opts : SimpleDecoderOptions) : List DecoderError :=
  match opts.decoderName with
  | some n => errs.map (setDecoderErrorName n)
  | none => errs

def isMaybe (decoder : JSValue → Except (List DecoderError) JSValue)
    (options : SimpleDecoderOptions) (value : JSValue) :
    Except (List DecoderError) JSValue :=
  match isExactly .undef value with
  | .ok r => .ok r
  | .error _ =>
    match isExactly .nullJ value with
    | .ok r => .ok r
    | .error _ =>
      match decoder value with
      | .ok r => .ok r
      | .error errs =>
        .error (applyOptionsToDecoderErrors
          (errs.map (fun e => .mk value
            (e.message ++ " OR must be null OR must be undefined") "isMaybe" (some e)))
          options)

/-- The test mapping of the key-ordering scenario: insertion order b, a, c. -/
def mTestC2 : YValue := .mapV [("b", .numV 1), ("a", .numV 2), ("c", .numV 3)]

/-- The reversing comparator `(a, b) => a < b ? 1 : a > b ? -1 : 0`. -/
def revCmp (a b : String) : Int :=
  if charsLt a.data b.data then 1 else if charsLt b.data a.data then -1 else 0

/-- Modelled from the spec: a corpus of known-bad documents, each with the
file name under which it is loaded (§7). -/
def badCorpus : List (String × String) :=
  [ ("tabs.yaml", "\ta: 1\n")
  , ("badindent.yaml", "- 1\n   - 2\n")
  , ("colon.yaml", "a:1\n")
  , ("quote.yaml", "'abc\n")
  , ("mixed.yaml", "- 1\nb: 2\n")
  , ("after.yaml", "a: 1\n- 2\n") ]

theorem digitVal_digitChar {k : Nat} (h : k < 10) : digitVal (digitChar k) = k := by
  interval_cases k <;> rfl

theorem isDigitChar_digitChar {k : Nat} (h : k < 10) : isDigitChar (digitChar k) = true := by
  interval_cases k <;> rfl

theorem digitsToNat_append (xs : Chars) (c : Char) :
    digitsToNat (xs ++ [c]) = digitsToNat xs * 10 + digitVal c := by
  simp [digitsToNat, List.foldl_append]

theorem digitsToNat_natDigitsGo :
    ∀ fuel n, n < fuel → digitsToNat (natDigitsGo fuel n) = n := by
  intro fuel
  induction fuel with
  | zero => intro n h; omega
  | succ f ih =>
    intro n h
    by_cases h10 : n < 10
    · simp [natDigitsGo, h10, digitsToNat, digitVal_digitChar h10]
    · have hn : 0 < n := by omega
      have hdiv : n / 10 < n := Nat.div_lt_self hn (by omega)
      have hrec : n / 10 < f := by omega
      have hm : n % 10 < 10 := Nat.mod_lt _ (by omega)
      rw [natDigitsGo, if_neg h10, digitsToNat_append, ih _ hrec, digitVal_digitChar hm]
      omega

theorem digitsToNat_natDigits (n : Nat) : digitsToNat (natDigits n) = n :=
  digitsToNat_natDigitsGo (n + 1) n (Nat.lt_succ_self n)

theorem natDigitsGo_all_digits :
    ∀ fuel n c, c ∈ natDigitsGo fuel n → isDigitChar c = true := by
  intro fuel
  induction fuel with
  | zero => intro n c h; simp [natDigitsGo] at h
  | succ f ih =>
    intro n c h
    by_cases h10 : n < 10
    · simp [natDigitsGo, h10] at h
      subst h; exact isDigitChar_digitChar h10
    · simp [natDigitsGo, h10] at h
      rcases h with h | h
      · exact ih _ _ h
      · subst h; exact isDigitChar_digitChar (Nat.mod_lt _ (by omega))

theorem natDigitsGo_ne_nil (fuel n : Nat) (h : n < fuel) : natDigitsGo fuel n ≠ [] := by
  cases fuel with
  | zero => omega
  | succ f =>
    by_cases h10 : n < 10 <;> simp [natDigitsGo, h10]

theorem natDigits_ne_nil (n : Nat) : natDigits n ≠ [] :=
  natDigitsGo_ne_nil (n + 1) n (Nat.lt_succ_self n)

theorem natDigits_all_digits (n : Nat) : ∀ c ∈ natDigits n, isDigitChar c = true :=
  fun c hc => natDigitsGo_all_digits (n + 1) n c hc

theorem isDigitChar_ne_minus {c : Char} (h : isDigitChar c = true) : c ≠ '-' := by
  intro hc; subst hc; simp [isDigitChar] at h

theorem isIntStr_intRepr (n : Int) : isIntStr (intRepr n) = true := by
  by_cases hn : n < 0
  · simp only [intRepr, if_pos hn, isIntStr, if_pos rfl]
    have h1 : natDigits n.natAbs ≠ [] := natDigits_ne_nil _
    simp [List.isEmpty_iff, h1, List.all_eq_true]
    exact natDigits_all_digits _
  · simp only [intRepr, if_neg hn]
    obtain ⟨c, cs, hcons⟩ := List.exists_cons_of_ne_nil (natDigits_ne_nil n.toNat)
    have hall : ∀ d ∈ natDigits n.toNat, isDigitChar d = true := natDigits_all_digits _
    have hc : isDigitChar c = true := hall c (by rw [hcons]; exact List.mem_cons_self _ _)
    rw [hcons]
    simp only [isIntStr, if_neg (isDigitChar_ne_minus hc)]
    rw [List.all_eq_true]
    intro d hd
    exact hall d (by rw [hcons]; exact hd)

theorem parseIntChars_intRepr (n : Int) : parseIntChars (intRepr n) = n := by
  by_cases hn : n < 0
  · have h1 : parseIntChars ('-' :: natDigits n.natAbs) =
        -(digitsToNat (natDigits n.natAbs) : Int) := by
      simp [parseIntChars]
    rw [intRepr, if_pos hn, h1, digitsToNat_natDigits]
    omega
  · simp only [intRepr, if_neg hn]
    obtain ⟨c, cs, hcons⟩ := List.exists_cons_of_ne_nil (natDigits_ne_nil n.toNat)
    have hc : isDigitChar c = true :=
      natDigits_all_digits _ c (by rw [hcons]; exact List.mem_cons_self _ _)
    rw [hcons]
    simp only [parseIntChars, if_neg (isDigitChar_ne_minus hc)]
    rw [← hcons, digitsToNat_natDigits]
    omega

theorem parseSQGo_close_nil (acc : Chars) : parseSQGo ['\''] acc = some (acc.reverse, []) := by
  rw [parseSQGo.eq_def]; simp

theorem parseSQGo_twoQuotes (r acc : Chars) :
    parseSQGo ('\'' :: '\'' :: r) acc = parseSQGo r ('\'' :: acc) := by
  rw [parseSQGo.eq_def]; simp

theorem parseSQGo_close {c : Char} (h : c ≠ '\'') (r acc : Chars) :
    parseSQGo ('\'' :: c :: r) acc = some (acc.reverse, c :: r) := by
  rw [parseSQGo.eq_def]
  simp [h]

theorem parseSQGo_other {c : Char} (h : c ≠ '\'') (rest acc : Chars) :
    parseSQGo (c :: rest) acc = parseSQGo rest (c :: acc) := by
  rw [parseSQGo.eq_def]
  simp [h]

theorem sqEscape_eq_consNe {c : Char} (h : c ≠ '\'') (cs : Chars) :
    sqEscape (c :: cs) = c :: sqEscape cs := by
  rw [sqEscape.eq_def]
  simp [h]

theorem parseSQGo_sqEscape :
    ∀ (s rest acc : Chars), rest.head? ≠ some '\'' →
      parseSQGo (sqEscape s ++ '\'' :: rest) acc = some (acc.reverse ++ s, rest) := by
  intro s
  induction s with
  | nil =>
    intro rest acc h
    cases rest with
    | nil => simp [sqEscape, parseSQGo_close_nil]
    | cons c r =>
      have hc : c ≠ '\'' := by intro hc; subst hc; simp at h
      simp [sqEscape, parseSQGo_close hc]
  | cons c cs ih =>
    intro rest acc h
    by_cases hc : c = '\''
    · subst hc
      simp only [sqEscape, List.cons_append, parseSQGo_twoQuotes]
      rw [ih rest ('\'' :: acc) h]
      simp
    · rw [sqEscape_eq_consNe hc, List.cons_append, parseSQGo_other hc]
      rw [ih rest (c :: acc) h]
      simp

theorem hexVal_hexDigitChar {k : Nat} (h : k < 16) : hexVal (hexDigitChar k) = k := by
  interval_cases k <;> decide

theorem isHexChar_hexDigitChar {k : Nat} (h : k < 16) : isHexChar (hexDigitChar k) = true := by
  interval_cases k <;> decide

theorem parseDQGo_closeQ (rest acc : Chars) :
    parseDQGo ('\"' :: rest) acc = some (acc.reverse, rest) := by
  rw [parseDQGo.eq_def]; simp

theorem parseDQGo_escN (r acc : Chars) :
    parseDQGo ('\\' :: 'n' :: r) acc = parseDQGo r ('\n' :: acc) := by
  rw [parseDQGo.eq_def]; simp

theorem parseDQGo_escT (r acc : Chars) :
    parseDQGo ('\\' :: 't' :: r) acc = parseDQGo r ('\t' :: acc) := by
  rw [parseDQGo.eq_def]; simp

theorem parseDQGo_escQ (r acc : Chars) :
    parseDQGo ('\\' :: '\"' :: r) acc = parseDQGo r ('\"' :: acc) := by
  rw [parseDQGo.eq_def]; simp

theorem parseDQGo_escB (r acc : Chars) :
    parseDQGo ('\\' :: '\\' :: r) acc = parseDQGo r ('\\' :: acc) := by
  rw [parseDQGo.eq_def]; simp

theorem parseDQGo_escX (h1 h2 : Char) (r acc : Chars) :
    parseDQGo ('\\' :: 'x' :: h1 :: h2 :: r) acc =
      if isHexChar h1 && isHexChar h2 then
        parseDQGo r (Char.ofNat (16 * hexVal h1 + hexVal h2) :: acc)
      else none := by
  rw [parseDQGo.eq_def]; simp

theorem parseDQGo_other {c : Char} (hq : c ≠ '\"') (hb : c ≠ '\\') (rest acc : Chars) :
    parseDQGo (c :: rest) acc = parseDQGo rest (c :: acc) := by
  rw [parseDQGo.eq_def]
  simp [hq, hb]

theorem dqEscapeChar_plain {c : Char} (hq : c ≠ '\"') (hb : c ≠ '\\') (hn : c ≠ '\n')
    (ht : c ≠ '\t') (hc : ¬ c.toNat < 32) : dqEscapeChar c = [c] := by
  simp [dqEscapeChar, hq, hb, hn, ht, hc]

theorem parseDQGo_dqEscape :
    ∀ (s rest acc : Chars),
      parseDQGo (dqEscape s ++ '\"' :: rest) acc = some (acc.reverse ++ s, rest) := by
  intro s
  induction s with
  | nil =>
    intro rest acc
    simp [dqEscape, parseDQGo_closeQ]
  | cons c cs ih =>
    intro rest acc
    by_cases h1 : c = '\"'
    · subst h1
      show parseDQGo (dqEscapeChar '\"' ++ dqEscape cs ++ '\"' :: rest) acc = _
      rw [show dqEscapeChar '\"' = ['\\', '\"'] from rfl]
      simp only [List.cons_append, List.nil_append, List.append_assoc]
      rw [parseDQGo_escQ, ih]
      simp
    · by_cases h2 : c = '\\'
      · subst h2
        show parseDQGo (dqEscapeChar '\\' ++ dqEscape cs ++ '\"' :: rest) acc = _
        rw [show dqEscapeChar '\\' = ['\\', '\\'] from rfl]
        simp only [List.cons_append, List.nil_append, List.append_assoc]
        rw [parseDQGo_escB, ih]
        simp
      · by_cases h3 : c = '\n'
        · subst h3
          show parseDQGo (dqEscapeChar '\n' ++ dqEscape cs ++ '\"' :: rest) acc = _
          rw [show dqEscapeChar '\n' = ['\\', 'n'] from rfl]
          simp only [List.cons_append, List.nil_append, List.append_assoc]
          rw [parseDQGo_escN, ih]
          simp
        · by_cases h4 : c = '\t'
          · subst h4
            show parseDQGo (dqEscapeChar '\t' ++ dqEscape cs ++ '\"' :: rest) acc = _
            rw [show dqEscapeChar '\t' = ['\\', 't'] from rfl]
            simp only [List.cons_append, List.nil_append, List.append_assoc]
            rw [parseDQGo_escT, ih]
            simp
          · by_cases h5 : c.toNat < 32
            · have hq : c.toNat / 16 < 16 := by omega
              have hr : c.toNat % 16 < 16 := Nat.mod_lt _ (by omega)
              have hx : 16 * (c.toNat / 16) + c.toNat % 16 = c.toNat := by omega
              show parseDQGo (dqEscapeChar c ++ dqEscape cs ++ '\"' :: rest) acc = _
              rw [show dqEscapeChar c =
                ['\\', 'x', hexDigitChar (c.toNat / 16), hexDigitChar (c.toNat % 16)] by
                simp [dqEscapeChar, h1, h2, h3, h4, h5]]
              simp only [List.cons_append, List.nil_append, List.append_assoc]
              rw [parseDQGo_escX]
              rw [isHexChar_hexDigitChar hq, isHexChar_hexDigitChar hr,
                hexVal_hexDigitChar hq, hexVal_hexDigitChar hr]
              simp only [Bool.and_self, if_pos trivial, hx, Char.ofNat_toNat, reduceIte]
              rw [ih]
              simp
            · show parseDQGo (dqEscapeChar c ++ dqEscape cs ++ '\"' :: rest) acc = _
              rw [dqEscapeChar_plain h1 h2 h3 h4 h5]
              simp only [List.cons_append, List.nil_append, List.append_assoc]
              rw [parseDQGo_other h1 h2, ih]
              simp

theorem stringMk_data (s : String) : String.mk s.data = s := rfl

theorem isDigitChar_bounds {c : Char} (h : isDigitChar c = true) :
    48 ≤ c.toNat ∧ c.toNat ≤ 57 := by
  simpa [isDigitChar] using h

/-- The printed form of an integer starts with a minus sign or a digit. -/
theorem intRepr_head (n : Int) :
    ∃ c cs, intRepr n = c :: cs ∧ (c = '-' ∨ isDigitChar c = true) := by
  by_cases hn : n < 0
  · exact ⟨'-', natDigits n.natAbs, by simp [intRepr, hn], Or.inl rfl⟩
  · obtain ⟨c, cs, hcons⟩ := List.exists_cons_of_ne_nil (natDigits_ne_nil n.toNat)
    refine ⟨c, cs, by simp [intRepr, hn, hcons], Or.inr ?_⟩
    exact natDigits_all_digits _ c (by rw [hcons]; exact List.mem_cons_self _ _)

/-- Plain text that passes the plain-rendering test resolves back to itself as
a string: re-scanning is the identity on such scalars. -/
theorem resolveScalar_plainOk {s : Chars} (h : plainOk s = true) :
    resolveScalar s = .strV (String.mk s) := by
  match s with
  | [] => simp [plainOk] at h
  | c :: cs =>
    simp only [plainOk, Bool.and_eq_true, Bool.not_eq_true'] at h
    obtain ⟨⟨⟨⟨⟨⟨⟨hbad, hdash⟩, hq⟩, hsp⟩, hall⟩, hnull⟩, hbool⟩, hint⟩ := h
    have hb1 : ((c :: cs : Chars) == trueChars) = false := by
      cases hb : ((c :: cs : Chars) == trueChars) with
      | false => rfl
      | true => simp [isBoolStr, hb] at hbool
    have hb2 : ((c :: cs : Chars) == falseChars) = false := by
      cases hb : ((c :: cs : Chars) == falseChars) with
      | false => rfl
      | true => simp [isBoolStr, hb] at hbool
    simp [resolveScalar, hnull, hb1, hb2, hint]

theorem ne_of_digit_of_not {c d : Char} (h : isDigitChar c = true)
    (hd : isDigitChar d = false) : c ≠ d := by
  intro he; subst he; rw [h] at hd; cases hd

theorem consNeBeq {c d : Char} (h : c ≠ d) (cs ds : Chars) :
    ((c :: cs : Chars) == (d :: ds)) = false := by
  simp [beq_eq_false_iff_ne, h]

theorem parseScalarPos_consNe {c : Char} (h1 : c ≠ '\'') (h2 : c ≠ '\"') (rest : Chars) :
    parseScalarPos (c :: rest) =
      (if (c :: rest : Chars) == emptyListChars then .ok (.listV [])
      else if (c :: rest : Chars) == emptyMapChars then .ok (.mapV [])
      else if c == '[' || c == '\x7b' then
        .error ⟨.scannerKind, "unsupported flow collection", c :: rest⟩
      else .ok (resolveScalar (c :: rest))) := by
  rw [parseScalarPos.eq_def]
  simp [h1, h2]

/-- The printed integer re-resolves to the same integer value. -/
theorem resolveScalar_intRepr (n : Int) : resolveScalar (intRepr n) = .numV n := by
  obtain ⟨c, cs, hrep, hc⟩ := intRepr_head n
  have hn : c ≠ 'n' := by
    rcases hc with h | h
    · subst h; decide
    · exact ne_of_digit_of_not h (by decide)
  have ht : c ≠ '~' := by
    rcases hc with h | h
    · subst h; decide
    · exact ne_of_digit_of_not h (by decide)
  have htr : c ≠ 't' := by
    rcases hc with h | h
    · subst h; decide
    · exact ne_of_digit_of_not h (by decide)
  have hf : c ≠ 'f' := by
    rcases hc with h | h
    · subst h; decide
    · exact ne_of_digit_of_not h (by decide)
  rw [hrep, resolveScalar]
  rw [show isNullStr (c :: cs) = false by
    simp [isNullStr, nullChars, consNeBeq hn, consNeBeq ht]]
  simp only [Bool.false_eq_true, if_false, trueChars, falseChars, consNeBeq htr, consNeBeq hf,
    Bool.false_eq_true, if_false]
  rw [← hrep, isIntStr_intRepr]
  simp [parseIntChars_intRepr]

/-- Scalar round trip: parsing the rendered form of an inline value yields the
value back (printer completeness at scalar positions). -/
theorem parseScalarPos_scalarChars : ∀ v : YValue, isInline v = true →
    parseScalarPos (scalarChars v) = .ok v := by
  intro v hv
  match v with
  | .nullV => rfl
  | .boolV true => rfl
  | .boolV false => rfl
  | .listV xs =>
    have hxs : xs = [] := by simpa [isInline, List.isEmpty_iff] using hv
    subst hxs; rfl
  | .mapV ps =>
    have hps : ps = [] := by simpa [isInline, List.isEmpty_iff] using hv
    subst hps; rfl
  | .numV n =>
    obtain ⟨c, cs, hrep, hc⟩ := intRepr_head n
    have hq1 : c ≠ '\'' := by
      rcases hc with h | h
      · subst h; decide
      · exact ne_of_digit_of_not h (by decide)
    have hq2 : c ≠ '\"' := by
      rcases hc with h | h
      · subst h; decide
      · exact ne_of_digit_of_not h (by decide)
    have hb1 : c ≠ '[' := by
      rcases hc with h | h
      · subst h; decide
      · exact ne_of_digit_of_not h (by decide)
    have hb2 : c ≠ '\x7b' := by
      rcases hc with h | h
      · subst h; decide
      · exact ne_of_digit_of_not h (by decide)
    show parseScalarPos (intRepr n) = _
    rw [hrep, parseScalarPos_consNe hq1 hq2]
    simp only [emptyListChars, emptyMapChars, consNeBeq hb1, consNeBeq hb2,
      Bool.false_eq_true, if_false, beq_eq_false_iff_ne, ne_eq]
    rw [if_neg (by simp [hb1, hb2])]
    rw [← hrep, resolveScalar_intRepr]
  | .strV s =>
    show parseScalarPos (if plainOk s.data then s.data else quoteChars s.data) = _
    by_cases hp : plainOk s.data
    · rw [if_pos hp]
      rcases hd : s.data with _ | ⟨c, cs⟩
      · rw [hd] at hp; simp [plainOk] at hp
      · rw [hd] at hp
        have hbad : badPlainChar c = false := by
          have := hp
          simp only [plainOk, Bool.and_eq_true, Bool.not_eq_true'] at this
          exact this.1.1.1.1.1.1.1
        have hq1 : c ≠ '\'' := fun he => by subst he; exact absurd hbad (by decide)
        have hq2 : c ≠ '\"' := fun he => by subst he; exact absurd hbad (by decide)
        have hb1 : c ≠ '[' := fun he => by subst he; exact absurd hbad (by decide)
        have hb2 : c ≠ '\x7b' := fun he => by subst he; exact absurd hbad (by decide)
        rw [parseScalarPos_consNe hq1 hq2]
        simp only [emptyListChars, emptyMapChars, consNeBeq hb1, consNeBeq hb2,
          Bool.false_eq_true, if_false]
        rw [if_neg (by simp [hb1, hb2])]
        rw [← hd, resolveScalar_plainOk (hd ▸ hp), stringMk_data]
    · rw [if_neg hp, quoteChars]
      by_cases hdq : needsDQ s.data
      · rw [if_pos hdq]
        show parseScalarPos ('\"' :: (dqEscape s.data ++ '\"' :: [])) = _
        rw [parseScalarPos.eq_def]
        simp only [reduceIte, reduceCtorEq]
        rw [parseDQGo_dqEscape s.data [] []]
        simp [stringMk_data]
      · rw [if_neg hdq]
        show parseScalarPos ('\'' :: (sqEscape s.data ++ '\'' :: [])) = _
        rw [parseScalarPos.eq_def]
        simp only [reduceIte, reduceCtorEq]
        rw [parseSQGo_sqEscape s.data [] [] (by simp)]
        simp [stringMk_data]

theorem splitLinesGo_append {l : Chars} (hnl : ('\n' : Char) ∉ l) (rest cur : Chars) :
    splitLinesGo (l ++ '\n' :: rest) cur = (cur.reverse ++ l) :: splitLinesGo rest [] := by
  induction l generalizing cur with
  | nil => simp [splitLinesGo]
  | cons c cs ih =>
    have hc : c ≠ '\n' := fun he => hnl (he ▸ List.mem_cons_self _ _)
    rw [List.cons_append, splitLinesGo.eq_def]
    simp only [if_neg hc]
    rw [ih (fun hm => hnl (List.mem_cons_of_mem _ hm))]
    simp

theorem splitRawLines_joinLines :
    ∀ ls : List Chars, (∀ l ∈ ls, ('\n' : Char) ∉ l) → splitRawLines (joinLines ls) = ls := by
  intro ls
  induction ls with
  | nil => intro _; rfl
  | cons l rest ih =>
    intro h
    have h1 : ('\n' : Char) ∉ l := h l (List.mem_cons_self _ _)
    have h2 : ∀ x ∈ rest, ('\n' : Char) ∉ x := fun x hx => h x (List.mem_cons_of_mem _ hx)
    show splitLinesGo (l ++ '\n' :: joinLines rest) [] = l :: rest
    rw [splitLinesGo_append h1]
    simp [splitRawLines] at ih
    rw [ih h2]
    simp

theorem toLine_mkRaw (n : Nat) (txt : Chars) (h : txt.head? ≠ some ' ') :
    toLine (mkRaw (n, txt)) = (n, txt) := by
  induction n with
  | zero =>
    simp only [mkRaw, List.replicate, List.nil_append]
    cases txt with
    | nil => rfl
    | cons c cs =>
      have hc : c ≠ ' ' := by intro he; subst he; simp at h
      simp [toLine, countIndent, dropIndent, hc]
  | succ k ih =>
    have hstep : mkRaw (k + 1, txt) = ' ' :: mkRaw (k, txt) := by
      simp [mkRaw, List.replicate_succ]
    have ih' := ih
    rw [toLine, Prod.mk.injEq] at ih'
    obtain ⟨h1, h2⟩ := ih'
    rw [hstep, toLine]
    simp [countIndent, dropIndent, h1, h2]

theorem toLines_renderLines (ls : List (Nat × Chars)) (h : ∀ p ∈ ls, goodLine p) :
    toLines (renderLines ls) = ls := by
  have hnl : ∀ l ∈ ls.map mkRaw, ('\n' : Char) ∉ l := by
    intro l hl
    obtain ⟨p, hp, hpl⟩ := List.mem_map.mp hl
    subst hpl
    intro hmem
    rcases List.mem_append.mp hmem with hm | hm
    · exact absurd (List.eq_of_mem_replicate hm) (by decide)
    · exact (h p hp).1 hm
  show (splitRawLines (joinLines (ls.map mkRaw))).map toLine = ls
  rw [splitRawLines_joinLines _ hnl, List.map_map]
  have : ∀ p ∈ ls, (toLine ∘ mkRaw) p = p := by
    intro p hp
    obtain ⟨n, txt⟩ := p
    exact toLine_mkRaw n txt (h _ hp).2
  calc ls.map (toLine ∘ mkRaw) = ls.map id := List.map_congr_left this
    _ = ls := List.map_id ls

theorem ysize_pos (v : YValue) : 1 ≤ ysize v := by
  cases v <;> simp [ysize]

theorem vDepth_pos (v : YValue) : 1 ≤ vDepth v := by
  cases v with
  | listV xs => cases xs <;> simp [vDepth]
  | mapV ps => cases ps <;> simp [vDepth]
  | _ => simp [vDepth]

theorem vDepthL_le_of_mem {x : YValue} :
    ∀ {xs : List YValue}, x ∈ xs → vDepth x ≤ vDepthL xs := by
  intro xs
  induction xs with
  | nil => intro h; cases h
  | cons y ys ih =>
    intro h
    rw [vDepthL]
    rcases List.mem_cons.mp h with h | h
    · subst h; exact le_max_left _ _
    · exact le_trans (ih h) (le_max_right _ _)

theorem vDepthP_le_of_mem {p : String × YValue} :
    ∀ {ps : List (String × YValue)}, p ∈ ps → vDepth p.2 ≤ vDepthP ps := by
  intro ps
  induction ps with
  | nil => intro h; cases h
  | cons q qs ih =>
    intro h
    rw [vDepthP]
    rcases List.mem_cons.mp h with h | h
    · subst h; exact le_max_left _ _
    · exact le_trans (ih h) (le_max_right _ _)

theorem depthFits_none {opts : LoadOpts} (h : opts.maxDepth = none) (lvl : Nat) (v : YValue) :
    depthFits opts lvl v := fun m hm => by rw [h] at hm; cases hm

theorem tooDeep_eq_false {opts : LoadOpts} {lvl : Nat} {v : YValue}
    (h : depthFits opts lvl v) : tooDeep opts lvl = false := by
  rw [tooDeep]
  cases hmd : opts.maxDepth with
  | none => rfl
  | some m =>
    have := h m hmd
    have := vDepth_pos v
    simp
    omega

theorem depthFits_child_list {opts : LoadOpts} {lvl : Nat} {x : YValue} {xs : List YValue}
    (h : depthFits opts lvl (.listV xs)) (hx : x ∈ xs) : depthFits opts (lvl + 1) x := by
  intro m hm
  have h1 := h m hm
  obtain ⟨y, ys, rfl⟩ := List.exists_cons_of_ne_nil (List.ne_nil_of_mem hx)
  rw [vDepth] at h1
  have h2 := vDepthL_le_of_mem hx
  omega

theorem depthFits_child_map {opts : LoadOpts} {lvl : Nat} {p : String × YValue}
    {ps : List (String × YValue)}
    (h : depthFits opts lvl (.mapV ps)) (hp : p ∈ ps) : depthFits opts (lvl + 1) p.2 := by
  intro m hm
  have h1 := h m hm
  obtain ⟨q, qs, rfl⟩ := List.exists_cons_of_ne_nil (List.ne_nil_of_mem hp)
  rw [vDepth] at h1
  have h2 := vDepthP_le_of_mem hp
  omega

theorem tooDeep_child_list {opts : LoadOpts} {lvl : Nat} {x : YValue} {xs : List YValue}
    (h : depthFits opts lvl (.listV xs)) (hx : x ∈ xs) : tooDeep opts (lvl + 1) = false :=
  tooDeep_eq_false (depthFits_child_list h hx)

theorem tooDeep_child_map {opts : LoadOpts} {lvl : Nat} {p : String × YValue}
    {ps : List (String × YValue)}
    (h : depthFits opts lvl (.mapV ps)) (hp : p ∈ ps) : tooDeep opts (lvl + 1) = false :=
  tooDeep_eq_false (depthFits_child_map h hp)

theorem digitChar_mem (k : Nat) :
    digitChar k ∈ ['0', '1', '2', '3', '4', '5', '6', '7', '8', '9'] := by
  rw [digitChar.eq_def]
  split <;> decide

theorem hexDigitChar_mem (k : Nat) :
    hexDigitChar k ∈ ['0', '1', '2', '3', '4', '5', '6', '7'] ++
      ['8', '9', 'a', 'b', 'c', 'd', 'e', 'f'] := by
  rw [hexDigitChar]
  split
  · have := digitChar_mem k
    simp at this ⊢
    tauto
  · split <;> try decide
    split <;> try decide
    split <;> try decide
    split <;> try decide
    split <;> decide

theorem mem_sqEscape {c : Char} :
    ∀ {s : Chars}, c ∈ sqEscape s → c ∈ s ∨ c = '\'' := by
  intro s
  induction s with
  | nil => intro h; simp [sqEscape] at h
  | cons d ds ih =>
    intro h
    by_cases hd : d = '\''
    · subst hd
      simp only [sqEscape] at h
      rcases List.mem_cons.mp h with h | h
      · exact Or.inr h
      rcases List.mem_cons.mp h with h | h
      · exact Or.inr h
      · rcases ih h with h | h
        · exact Or.inl (List.mem_cons_of_mem _ h)
        · exact Or.inr h
    · rw [sqEscape_eq_consNe hd] at h
      rcases List.mem_cons.mp h with h | h
      · exact Or.inl (h ▸ List.mem_cons_self _ _)
      · rcases ih h with h | h
        · exact Or.inl (List.mem_cons_of_mem _ h)
        · exact Or.inr h

theorem newline_not_mem_dqEscapeChar (d : Char) : ('\n' : Char) ∉ dqEscapeChar d := by
  rw [dqEscapeChar]
  split
  · decide
  split
  · decide
  split
  · decide
  split
  · decide
  split
  · intro h
    rcases List.mem_cons.mp h with h | h
    · exact absurd h (by decide)
    rcases List.mem_cons.mp h with h | h
    · exact absurd h (by decide)
    rcases List.mem_cons.mp h with h | h
    · have hmem16 := hexDigitChar_mem (d.toNat / 16)
      rw [← h] at hmem16
      exact absurd hmem16 (by decide)
    rcases List.mem_cons.mp h with h | h
    · have hmem16 := hexDigitChar_mem (d.toNat % 16)
      rw [← h] at hmem16
      exact absurd hmem16 (by decide)
    · simp at h
  · rename_i h5
    intro h
    simp at h
    subst h
    exact h5 (by decide)

theorem newline_not_mem_dqEscape {s : Chars} : ('\n' : Char) ∉ dqEscape s := by
  induction s with
  | nil => simp [dqEscape]
  | cons d ds ih =>
    rw [dqEscape]
    intro h
    rcases List.mem_append.mp h with h | h
    · exact newline_not_mem_dqEscapeChar d h
    · exact ih h

theorem plainOk_props {c : Char} {cs : Chars} (h : plainOk (c :: cs) = true) :
    badPlainChar c = false ∧ c ≠ '-' ∧ c ≠ '?' ∧ c ≠ ' ' ∧
      (∀ d ∈ cs, badPlainChar d = false) := by
  simp only [plainOk, Bool.and_eq_true, Bool.not_eq_true', List.all_eq_true,
    beq_iff_eq] at h
  obtain ⟨⟨⟨⟨⟨⟨⟨hbad, hdash⟩, hq⟩, hsp⟩, hall⟩, _⟩, _⟩, _⟩ := h
  refine ⟨hbad, ?_, ?_, ?_, ?_⟩
  · intro he; rw [he] at hdash; simp at hdash
  · intro he; rw [he] at hq; simp at hq
  · intro he; rw [he] at hsp; simp at hsp
  · intro d hd
    have := hall d hd
    simpa using this

theorem badPlainChar_false_props {c : Char} (h : badPlainChar c = false) :
    c ≠ ':' ∧ c ≠ '\'' ∧ c ≠ '\"' ∧ c ≠ '[' ∧ c ≠ '\x7b' ∧ c ≠ '\n' ∧ c ≠ '\t' := by
  refine ⟨?_, ?_, ?_, ?_, ?_, ?_, ?_⟩ <;>
    · intro he; subst he; exact absurd h (by decide)

/-- Every inline scalar rendering is a legal dumped-line content. -/
theorem scalarChars_good {v : YValue} (h : isInline v = true) : goodTxt (scalarChars v) := by
  match v with
  | .nullV => exact ⟨by decide, by decide, by decide, by decide⟩
  | .boolV true => exact ⟨by decide, by decide, by decide, by decide⟩
  | .boolV false => exact ⟨by decide, by decide, by decide, by decide⟩
  | .listV xs => exact show goodTxt emptyListChars from ⟨by decide, by decide, by decide, by decide⟩
  | .mapV ps => exact show goodTxt emptyMapChars from ⟨by decide, by decide, by decide, by decide⟩
  | .numV n =>
    obtain ⟨c, cs, hrep, hc⟩ := intRepr_head n
    show goodTxt (intRepr n)
    rw [hrep]
    have hcsp : c ≠ ' ' := by
      rcases hc with h | h
      · subst h; decide
      · exact ne_of_digit_of_not h (by decide)
    have hct : c ≠ '\t' := by
      rcases hc with h | h
      · subst h; decide
      · exact ne_of_digit_of_not h (by decide)
    refine ⟨by simp, by simp [hcsp], by simp [hct], ?_⟩
    intro hmem
    rw [← hrep] at hmem
    by_cases hn : n < 0
    · rw [intRepr, if_pos hn] at hmem
      rcases List.mem_cons.mp hmem with h | h
      · exact absurd h.symm (by decide)
      · exact absurd (natDigits_all_digits _ _ h) (by decide)
    · rw [intRepr, if_neg hn] at hmem
      exact absurd (natDigits_all_digits _ _ hmem) (by decide)
  | .strV s =>
    show goodTxt (if plainOk s.data then s.data else quoteChars s.data)
    by_cases hp : plainOk s.data
    · rw [if_pos hp]
      rcases hd : s.data with _ | ⟨c, cs⟩
      · rw [hd] at hp; simp [plainOk] at hp
      · rw [hd] at hp
        obtain ⟨hbad, _, _, hsp, hall⟩ := plainOk_props hp
        have hbadp := badPlainChar_false_props hbad
        refine ⟨by simp, by simp [hsp], by simp [hbadp.2.2.2.2.2.2], ?_⟩
        intro hmem
        rcases List.mem_cons.mp hmem with h | h
        · exact hbadp.2.2.2.2.2.1 h.symm
        · exact absurd (hall _ h) (by decide)
    · rw [if_neg hp, quoteChars]
      by_cases hdq : needsDQ s.data
      · rw [if_pos hdq]
        refine ⟨by simp [dqChars], by simp [dqChars], by simp [dqChars], ?_⟩
        rw [dqChars]
        intro hmem
        rcases List.mem_cons.mp hmem with h | h
        · exact absurd h.symm (by decide)
        rcases List.mem_append.mp h with h | h
        · exact newline_not_mem_dqEscape h
        · simp at h
      · rw [if_neg hdq]
        refine ⟨by simp [sqChars], by simp [sqChars], by simp [sqChars], ?_⟩
        rw [sqChars]
        intro hmem
        rcases List.mem_cons.mp hmem with h | h
        · exact absurd h.symm (by decide)
        rcases List.mem_append.mp h with h | h
        · rcases mem_sqEscape h with h | h
          · rw [needsDQ] at hdq
            simp only [List.any_eq_true, not_exists, not_and, Bool.not_eq_true] at hdq
            have := hdq _ h
            simp at this
          · exact absurd h.symm (by decide)
        · simp at h

theorem seqItemSplit_none_of_head {c : Char} (h : c ≠ '-') (cs : Chars) :
    seqItemSplit (c :: cs) = none := by
  rw [seqItemSplit.eq_def]
  simp [h]

theorem seqItemSplit_dashNil : seqItemSplit ['-'] = some none := by
  rw [seqItemSplit.eq_def]
  simp

theorem seqItemSplit_dashSpace (t : Chars) : seqItemSplit ('-' :: ' ' :: t) = some (some t) := by
  rw [seqItemSplit.eq_def]
  simp

theorem seqItemSplit_dashOther {d : Char} (h : d ≠ ' ') (t : Chars) :
    seqItemSplit ('-' :: d :: t) = none := by
  rw [seqItemSplit.eq_def]
  simp [h]

theorem seqItemSplit_scalarChars {v : YValue} (h : isInline v = true) :
    seqItemSplit (scalarChars v) = none := by
  match v with
  | .nullV => exact seqItemSplit_none_of_head (by decide) _
  | .boolV true => exact seqItemSplit_none_of_head (by decide) _
  | .boolV false => exact seqItemSplit_none_of_head (by decide) _
  | .listV xs => exact show seqItemSplit emptyListChars = none from
      seqItemSplit_none_of_head (by decide) _
  | .mapV ps => exact show seqItemSplit emptyMapChars = none from
      seqItemSplit_none_of_head (by decide) _
  | .numV n =>
    show seqItemSplit (intRepr n) = none
    by_cases hn : n < 0
    · rw [intRepr, if_pos hn]
      obtain ⟨d, ds, hds⟩ := List.exists_cons_of_ne_nil (natDigits_ne_nil n.natAbs)
      have hd : isDigitChar d = true :=
        natDigits_all_digits _ d (by rw [hds]; exact List.mem_cons_self _ _)
      rw [hds]
      exact seqItemSplit_dashOther (ne_of_digit_of_not hd (by decide)) _
    · rw [intRepr, if_neg hn]
      obtain ⟨d, ds, hds⟩ := List.exists_cons_of_ne_nil (natDigits_ne_nil n.toNat)
      have hd : isDigitChar d = true :=
        natDigits_all_digits _ d (by rw [hds]; exact List.mem_cons_self _ _)
      rw [hds]
      exact seqItemSplit_none_of_head (ne_of_digit_of_not hd (by decide)) _
  | .strV s =>
    show seqItemSplit (if plainOk s.data then s.data else quoteChars s.data) = none
    by_cases hp : plainOk s.data
    · rw [if_pos hp]
      rcases hd : s.data with _ | ⟨c, cs⟩
      · rw [hd] at hp; simp [plainOk] at hp
      · rw [hd] at hp
        exact seqItemSplit_none_of_head (plainOk_props hp).2.1 _
    · rw [if_neg hp, quoteChars]
      by_cases hdq : needsDQ s.data
      · rw [if_pos hdq, dqChars]
        exact seqItemSplit_none_of_head (by decide) _
      · rw [if_neg hdq, sqChars]
        exact seqItemSplit_none_of_head (by decide) _

theorem dropWhile_until_colon {l : Chars} (tail : Chars) (h : ∀ x ∈ l, x ≠ ':') :
    (l ++ ':' :: tail).dropWhile (fun d => !(d == ':')) = ':' :: tail := by
  induction l with
  | nil => simp [List.dropWhile]
  | cons c cs ih =>
    have hc : c ≠ ':' := h c (List.mem_cons_self _ _)
    have hcond : (!(c == ':')) = true := by simp [hc]
    rw [List.cons_append, List.dropWhile_cons, if_pos hcond]
    exact ih (fun x hx => h x (List.mem_cons_of_mem _ hx))

theorem takeWhile_until_colon {l : Chars} (tail : Chars) (h : ∀ x ∈ l, x ≠ ':') :
    (l ++ ':' :: tail).takeWhile (fun d => !(d == ':')) = l := by
  induction l with
  | nil => simp [List.takeWhile]
  | cons c cs ih =>
    have hc : c ≠ ':' := h c (List.mem_cons_self _ _)
    have hcond : (!(c == ':')) = true := by simp [hc]
    rw [List.cons_append, List.takeWhile_cons, if_pos hcond]
    rw [ih (fun x hx => h x (List.mem_cons_of_mem _ hx))]

theorem dropWhile_no_colon {l : Chars} (h : ∀ x ∈ l, x ≠ ':') :
    l.dropWhile (fun d => !(d == ':')) = [] := by
  rw [List.dropWhile_eq_nil_iff]
  intro x hx
  simpa using h x hx

theorem parseKeySplit_plain {c : Char} (h1 : c ≠ '\'') (h2 : c ≠ '\"') (rest : Chars) :
    parseKeySplit (c :: rest) =
      (match (c :: rest).dropWhile (fun d => !(d == ':')) with
      | ':' :: tail =>
        match keyToString (resolveScalar ((c :: rest).takeWhile (fun d => !(d == ':')))) with
        | some ks => some (ks, tail)
        | none => none
      | _ => none) := by
  rw [parseKeySplit.eq_def]
  simp [h1, h2]

/-- A rendered key followed by a colon splits back into exactly that key. -/
theorem parseKeySplit_keyChars (k : String) (tail : Chars) :
    parseKeySplit (keyChars k ++ ':' :: tail) = some (k, tail) := by
  rw [keyChars]
  show parseKeySplit ((if plainOk k.data then k.data else quoteChars k.data) ++ ':' :: tail) = _
  by_cases hp : plainOk k.data
  · rw [if_pos hp]
    rcases hd : k.data with _ | ⟨c, cs⟩
    · rw [hd] at hp; simp [plainOk] at hp
    · rw [hd] at hp
      obtain ⟨hbad, _, _, _, hall⟩ := plainOk_props hp
      have hnc : ∀ x ∈ (c :: cs : Chars), x ≠ ':' := by
        intro x hx
        rcases List.mem_cons.mp hx with hx | hx
        · subst hx; exact (badPlainChar_false_props hbad).1
        · exact (badPlainChar_false_props (hall x hx)).1
      have hq1 : c ≠ '\'' := (badPlainChar_false_props hbad).2.1
      have hq2 : c ≠ '\"' := (badPlainChar_false_props hbad).2.2.1
      rw [List.cons_append, parseKeySplit_plain hq1 hq2, ← List.cons_append,
        dropWhile_until_colon tail hnc, takeWhile_until_colon tail hnc,
        resolveScalar_plainOk hp, keyToString, ← hd, stringMk_data]
      rfl
  · rw [if_neg hp, quoteChars]
    by_cases hdq : needsDQ k.data
    · rw [if_pos hdq, dqChars]
      rw [List.cons_append, List.append_assoc, List.cons_append, List.nil_append]
      rw [parseKeySplit.eq_def]
      simp only [reduceIte, reduceCtorEq]
      rw [parseDQGo_dqEscape k.data (':' :: tail) []]
      simp [stringMk_data]
    · rw [if_neg hdq, sqChars]
      rw [List.cons_append, List.append_assoc, List.cons_append, List.nil_append]
      rw [parseKeySplit.eq_def]
      simp only [reduceIte, reduceCtorEq]
      rw [parseSQGo_sqEscape k.data (':' :: tail) [] (by simp)]
      simp [stringMk_data]

/-- An inline scalar rendering never splits as a mapping line. -/
theorem parseKeySplit_scalarChars {v : YValue} (h : isInline v = true) :
    parseKeySplit (scalarChars v) = none := by
  match v with
  | .nullV => decide
  | .boolV true => decide
  | .boolV false => decide
  | .listV xs => exact show parseKeySplit emptyListChars = none by decide
  | .mapV ps => exact show parseKeySplit emptyMapChars = none by decide
  | .numV n =>
    obtain ⟨c, cs, hrep, hc⟩ := intRepr_head n
    have hq1 : c ≠ '\'' := by
      rcases hc with h | h
      · subst h; decide
      · exact ne_of_digit_of_not h (by decide)
    have hq2 : c ≠ '\"' := by
      rcases hc with h | h
      · subst h; decide
      · exact ne_of_digit_of_not h (by decide)
    have hnc : ∀ x ∈ intRepr n, x ≠ ':' := by
      intro x hx
      by_cases hn : n < 0
      · rw [intRepr, if_pos hn] at hx
        rcases List.mem_cons.mp hx with hx | hx
        · subst hx; decide
        · exact ne_of_digit_of_not (natDigits_all_digits _ _ hx) (by decide)
      · rw [intRepr, if_neg hn] at hx
        exact ne_of_digit_of_not (natDigits_all_digits _ _ hx) (by decide)
    show parseKeySplit (intRepr n) = none
    rw [hrep] at hnc ⊢
    rw [parseKeySplit_plain hq1 hq2, dropWhile_no_colon hnc]
  | .strV s =>
    show parseKeySplit (if plainOk s.data then s.data else quoteChars s.data) = none
    by_cases hp : plainOk s.data
    · rw [if_pos hp]
      rcases hd : s.data with _ | ⟨c, cs⟩
      · rw [hd] at hp; simp [plainOk] at hp
      · rw [hd] at hp
        obtain ⟨hbad, _, _, _, hall⟩ := plainOk_props hp
        have hnc : ∀ x ∈ (c :: cs : Chars), x ≠ ':' := by
          intro x hx
          rcases List.mem_cons.mp hx with hx | hx
          · subst hx; exact (badPlainChar_false_props hbad).1
          · exact (badPlainChar_false_props (hall x hx)).1
        rw [parseKeySplit_plain (badPlainChar_false_props hbad).2.1
          (badPlainChar_false_props hbad).2.2.1, dropWhile_no_colon hnc]
    · rw [if_neg hp, quoteChars]
      by_cases hdq : needsDQ s.data
      · rw [if_pos hdq, dqChars]
        rw [show (dqEscape s.data ++ ['\"'] : Chars) = dqEscape s.data ++ '\"' :: [] from rfl]
        rw [parseKeySplit.eq_def]
        simp only [reduceIte, reduceCtorEq]
        rw [parseDQGo_dqEscape s.data [] []]
        rw [if_neg (show ¬(('\"' : Char) = '\'') by decide)]
      · rw [if_neg hdq, sqChars]
        rw [show (sqEscape s.data ++ ['\''] : Chars) = sqEscape s.data ++ '\'' :: [] from rfl]
        rw [parseKeySplit.eq_def]
        simp only [reduceIte, reduceCtorEq]
        rw [parseSQGo_sqEscape s.data [] [] (by simp)]

theorem ysize_listV (xs : List YValue) : ysize (.listV xs) = 1 + ysizeL xs := by
  rw [ysize]

theorem ysize_mapV (ps : List (String × YValue)) : ysize (.mapV ps) = 1 + ysizeP ps := by
  rw [ysize]

theorem ysizeL_cons (x : YValue) (xs : List YValue) :
    ysizeL (x :: xs) = ysize x + ysizeL xs := by
  rw [ysizeL]

theorem ysizeP_cons (p : String × YValue) (ps : List (String × YValue)) :
    ysizeP (p :: ps) = ysize p.2 + ysizeP ps := by
  rw [ysizeP]

theorem ysizeL_nil : ysizeL [] = 0 := by rw [ysizeL]

theorem ysizeP_nil : ysizeP [] = 0 := by rw [ysizeP]

theorem dumpJobF_one (sk : SortKeys) (fuel i : Nat) (v : YValue) :
    dumpJobF sk (fuel + 1) (.one i v) =
      if isInline v then [(i, scalarChars v)]
      else
        match v with
        | .listV xs => dumpJobF sk fuel (.seq i xs)
        | .mapV ps => dumpJobF sk fuel (.pairs i (sortPairs sk ps))
        | w => [(i, scalarChars w)] := rfl

theorem dumpJobF_one_inline (sk : SortKeys) (fuel i : Nat) {v : YValue}
    (h : isInline v = true) : dumpJobF sk (fuel + 1) (.one i v) = [(i, scalarChars v)] := by
  rw [dumpJobF_one, if_pos h]

theorem dumpJobF_one_listV (sk : SortKeys) (fuel i : Nat) {xs : List YValue}
    (h : isInline (YValue.listV xs) = false) :
    dumpJobF sk (fuel + 1) (.one i (.listV xs)) = dumpJobF sk fuel (.seq i xs) := by
  rw [dumpJobF_one, if_neg (by simp [h])]

theorem dumpJobF_one_mapV (sk : SortKeys) (fuel i : Nat) {ps : List (String × YValue)}
    (h : isInline (YValue.mapV ps) = false) :
    dumpJobF sk (fuel + 1) (.one i (.mapV ps)) =
      dumpJobF sk fuel (.pairs i (sortPairs sk ps)) := by
  rw [dumpJobF_one, if_neg (by simp [h])]

theorem dumpJobF_seq_nil (sk : SortKeys) (fuel i : Nat) :
    dumpJobF sk (fuel + 1) (.seq i []) = [] := rfl

theorem dumpJobF_seq_cons (sk : SortKeys) (fuel i : Nat) (x : YValue) (xs : List YValue) :
    dumpJobF sk (fuel + 1) (.seq i (x :: xs)) =
      (if isInline x then [(i, '-' :: ' ' :: scalarChars x)]
       else (i, ['-']) :: dumpJobF sk fuel (.one (i + 2) x)) ++
      dumpJobF sk fuel (.seq i xs) := rfl

theorem dumpJobF_pairs_nil (sk : SortKeys) (fuel i : Nat) :
    dumpJobF sk (fuel + 1) (.pairs i []) = [] := rfl

theorem dumpJobF_pairs_cons (sk : SortKeys) (fuel i : Nat) (k : String) (v : YValue)
    (ps : List (String × YValue)) :
    dumpJobF sk (fuel + 1) (.pairs i ((k, v) :: ps)) =
      (if isInline v then [(i, keyChars k ++ ':' :: ' ' :: scalarChars v)]
       else (i, keyChars k ++ [':']) :: dumpJobF sk fuel (.one (i + 2) v)) ++
      dumpJobF sk fuel (.pairs i ps) := rfl

theorem insertPairCmp_length (cmp : String → String → Int) (x : String × YValue) :
    ∀ l : List (String × YValue), (insertPairCmp cmp x l).length = l.length + 1 := by
  intro l
  induction l with
  | nil => rfl
  | cons y ys ih =>
    rw [insertPairCmp]
    by_cases h : cmp y.1 x.1 ≤ 0
    · rw [if_pos h]
      simp [ih]
    · rw [if_neg h]
      simp

theorem sortPairsCmp_length (cmp : String → String → Int) (ps : List (String × YValue)) :
    (sortPairsCmp cmp ps).length = ps.length := by
  suffices h : ∀ acc : List (String × YValue),
      (ps.foldl (fun acc x => insertPairCmp cmp x acc) acc).length = acc.length + ps.length by
    simpa using h []
  induction ps with
  | nil => intro acc; simp
  | cons p ps ih =>
    intro acc
    rw [List.foldl_cons, ih, insertPairCmp_length, List.length_cons]
    omega

theorem sortPairs_length (sk : SortKeys) (ps : List (String × YValue)) :
    (sortPairs sk ps).length = ps.length := by
  cases sk with
  | insertion => rfl
  | lex => exact sortPairsCmp_length _ _
  | custom cmp => exact sortPairsCmp_length _ _

/-- The first line of a dumped value sits exactly at the requested indent. -/
theorem dumpOne_head (sk : SortKeys) {v : YValue} (i : Nat) {dfuel : Nat}
    (hf : 2 * ysize v ≤ dfuel) :
    ∃ t rest, dumpJobF sk dfuel (.one i v) = (i, t) :: rest ∧ t ≠ [] := by
  have hv1 := ysize_pos v
  obtain ⟨f, rfl⟩ : ∃ f, dfuel = f + 1 := ⟨dfuel - 1, by omega⟩
  by_cases hv : isInline v = true
  · exact ⟨scalarChars v, [], dumpJobF_one_inline sk f i hv, (scalarChars_good hv).1⟩
  · match v with
    | .nullV => simp [isInline] at hv
    | .boolV _ => simp [isInline] at hv
    | .numV _ => simp [isInline] at hv
    | .strV _ => simp [isInline] at hv
    | .listV xs =>
      cases xs with
      | nil => simp [isInline] at hv
      | cons x xs =>
        rw [dumpJobF_one_listV sk f i (by simpa using hv)]
        have hsz : 1 ≤ f := by
          rw [ysize_listV, ysizeL_cons] at hf
          have := ysize_pos x
          omega
        obtain ⟨f2, rfl⟩ : ∃ f2, f = f2 + 1 := ⟨f - 1, by omega⟩
        rw [dumpJobF_seq_cons]
        by_cases hx : isInline x = true
        · rw [if_pos hx]
          exact ⟨'-' :: ' ' :: scalarChars x, _, rfl, by simp⟩
        · rw [if_neg hx]
          exact ⟨['-'], _, rfl, by simp⟩
    | .mapV ps =>
      cases ps with
      | nil => simp [isInline] at hv
      | cons p ps =>
        rw [dumpJobF_one_mapV sk f i (by simpa using hv)]
        have hsz : 1 ≤ f := by
          rw [ysize_mapV, ysizeP_cons] at hf
          have := ysize_pos p.2
          omega
        obtain ⟨f2, rfl⟩ : ∃ f2, f = f2 + 1 := ⟨f - 1, by omega⟩
        have hlen : (sortPairs sk (p :: ps)).length = ps.length + 1 := by
          rw [sortPairs_length]; rfl
        rcases hq : sortPairs sk (p :: ps) with _ | ⟨⟨k, w⟩, qs⟩
        · rw [hq] at hlen; simp at hlen
        · rw [dumpJobF_pairs_cons]
          have hknn : keyChars k ≠ [] := (@scalarChars_good (.strV k) rfl).1
          obtain ⟨kc, kcs, hkc⟩ := List.exists_cons_of_ne_nil hknn
          by_cases hw : isInline w = true
          · rw [if_pos hw]
            exact ⟨keyChars k ++ ':' :: ' ' :: scalarChars w, _, rfl, by simp [hkc]⟩
          · rw [if_neg hw]
            exact ⟨keyChars k ++ [':'], _, rfl, by simp [hkc]⟩

theorem dumpJobF_zero (sk : SortKeys) (job : DumpJob) : dumpJobF sk 0 job = [] := rfl

/-- Every line the dumper emits has legal content: nonempty, not starting
with a space or a tab, newline-free. -/
theorem dumpJobF_good (sk : SortKeys) :
    ∀ fuel job p, p ∈ dumpJobF sk fuel job → goodTxt p.2 := by
  intro fuel
  induction fuel with
  | zero =>
    intro job p h
    rw [dumpJobF_zero] at h
    cases h
  | succ f ih =>
    intro job p h
    match job with
    | .one i v =>
      by_cases hv : isInline v = true
      · rw [dumpJobF_one_inline sk f i hv] at h
        simp only [List.mem_singleton] at h
        rw [h]
        exact scalarChars_good hv
      · match v with
        | .nullV => simp [isInline] at hv
        | .boolV _ => simp [isInline] at hv
        | .numV _ => simp [isInline] at hv
        | .strV _ => simp [isInline] at hv
        | .listV xs =>
          rw [dumpJobF_one_listV sk f i (by simpa using hv)] at h
          exact ih _ _ h
        | .mapV ps =>
          rw [dumpJobF_one_mapV sk f i (by simpa using hv)] at h
          exact ih _ _ h
    | .seq i xs =>
      match xs with
      | [] =>
        rw [dumpJobF_seq_nil] at h
        cases h
      | x :: rest =>
        rw [dumpJobF_seq_cons] at h
        rcases List.mem_append.mp h with h | h
        · by_cases hx : isInline x = true
          · rw [if_pos hx] at h
            simp only [List.mem_singleton] at h
            rw [h]
            have hg := scalarChars_good hx
            refine ⟨by simp, by simp, by simp, ?_⟩
            intro hm
            rcases List.mem_cons.mp hm with hm | hm
            · exact absurd hm (by decide)
            rcases List.mem_cons.mp hm with hm | hm
            · exact absurd hm (by decide)
            · exact hg.2.2.2 hm
          · rw [if_neg hx] at h
            rcases List.mem_cons.mp h with h | h
            · rw [h]
              exact show goodTxt ['-'] from ⟨by decide, by decide, by decide, by decide⟩
            · exact ih _ _ h
        · exact ih _ _ h
    | .pairs i ps =>
      match ps with
      | [] =>
        rw [dumpJobF_pairs_nil] at h
        cases h
      | (k, v) :: rest =>
        rw [dumpJobF_pairs_cons] at h
        have hk : goodTxt (keyChars k) := @scalarChars_good (.strV k) rfl
        obtain ⟨kc, kcs, hkc⟩ := List.exists_cons_of_ne_nil hk.1
        rcases List.mem_append.mp h with h | h
        · by_cases hvv : isInline v = true
          · rw [if_pos hvv] at h
            simp only [List.mem_singleton] at h
            rw [h]
            have hg := scalarChars_good hvv
            refine ⟨by simp [hkc], ?_, ?_, ?_⟩
            · rw [show (keyChars k ++ ':' :: ' ' :: scalarChars v : Chars) =
                kc :: (kcs ++ ':' :: ' ' :: scalarChars v) by rw [← List.cons_append, ← hkc]]
              have := hk.2.1
              rw [hkc] at this
              simpa using this
            · rw [show (keyChars k ++ ':' :: ' ' :: scalarChars v : Chars) =
                kc :: (kcs ++ ':' :: ' ' :: scalarChars v) by rw [← List.cons_append, ← hkc]]
              have := hk.2.2.1
              rw [hkc] at this
              simpa using this
            · intro hm
              rcases List.mem_append.mp hm with hm | hm
              · exact hk.2.2.2 hm
              rcases List.mem_cons.mp hm with hm | hm
              · exact absurd hm (by decide)
              rcases List.mem_cons.mp hm with hm | hm
              · exact absurd hm (by decide)
              · exact hg.2.2.2 hm
          · rw [if_neg hvv] at h
            rcases List.mem_cons.mp h with h | h
            · rw [h]
              refine ⟨by simp [hkc], ?_, ?_, ?_⟩
              · rw [show (keyChars k ++ [':'] : Chars) = kc :: (kcs ++ [':'])
                  by rw [← List.cons_append, ← hkc]]
                have := hk.2.1
                rw [hkc] at this
                simpa using this
              · rw [show (keyChars k ++ [':'] : Chars) = kc :: (kcs ++ [':'])
                  by rw [← List.cons_append, ← hkc]]
                have := hk.2.2.1
                rw [hkc] at this
                simpa using this
              · intro hm
                rcases List.mem_append.mp hm with hm | hm
                · exact hk.2.2.2 hm
                · rcases List.mem_cons.mp hm with hm | hm
                  · exact absurd hm (by decide)
                  · cases hm
            · exact ih _ _ h
        · exact ih _ _ h

theorem parseF_block_eq (opts : LoadOpts) (fuel lvl i : Nat) (lines : List (Nat × Chars))
    (ws : List Warning) :
    parseF opts (fuel + 1) (.block lvl i lines) ws =
      (if tooDeep opts lvl then
        .error (.perr ⟨.depthKind, "maximum load depth exceeded", (lines.headD (0, [])).2⟩)
      else
        match lines with
        | [] => .ok (.nullV, [], ws)
        | (_, txt) :: rest =>
          match seqItemSplit txt with
          | some _ => parseF opts fuel (.seqItems lvl i lines []) ws
          | none =>
            match parseKeySplit txt with
            | some _ => parseF opts fuel (.mapItems lvl i lines []) ws
            | none =>
              match parseScalarPos txt with
              | .ok v => .ok (v, rest, ws)
              | .error e => .error (.perr e)) := rfl

theorem parseF_seq_eq (opts : LoadOpts) (fuel lvl i : Nat) (lines : List (Nat × Chars))
    (acc : List YValue) (ws : List Warning) :
    parseF opts (fuel + 1) (.seqItems lvl i lines acc) ws =
      (match lines with
      | [] => .ok (.listV acc.reverse, [], ws)
      | (j, txt) :: rest =>
        if j < i then .ok (.listV acc.reverse, lines, ws)
        else if i < j then
          .error (.perr ⟨.parserKind, "bad indentation of a sequence entry", txt⟩)
        else
          match seqItemSplit txt with
          | none => .error (.perr ⟨.parserKind, "expected a sequence entry", txt⟩)
          | some none =>
            match rest with
            | (j2, _) :: _ =>
              if i < j2 then
                match parseF opts fuel (.block (lvl + 1) j2 rest) ws with
                | .ok (v, rem, ws2) => parseF opts fuel (.seqItems lvl i rem (v :: acc)) ws2
                | .error e => .error e
              else if tooDeep opts (lvl + 1) then
                .error (.perr ⟨.depthKind, "maximum load depth exceeded", txt⟩)
              else parseF opts fuel (.seqItems lvl i rest (.nullV :: acc)) ws
            | [] =>
              if tooDeep opts (lvl + 1) then
                .error (.perr ⟨.depthKind, "maximum load depth exceeded", txt⟩)
              else .ok (.listV (YValue.nullV :: acc).reverse, [], ws)
          | some (some vtxt) =>
            if tooDeep opts (lvl + 1) then
              .error (.perr ⟨.depthKind, "maximum load depth exceeded", txt⟩)
            else
              match parseScalarPos vtxt with
              | .ok v => parseF opts fuel (.seqItems lvl i rest (v :: acc)) ws
              | .error e => .error (.perr e)) := rfl

theorem parseF_map_eq (opts : LoadOpts) (fuel lvl i : Nat) (lines : List (Nat × Chars))
    (acc : List (String × YValue)) (ws : List Warning) :
    parseF opts (fuel + 1) (.mapItems lvl i lines acc) ws =
      (match lines with
      | [] => .ok (.mapV acc.reverse, [], ws)
      | (j, txt) :: rest =>
        if j < i then .ok (.mapV acc.reverse, lines, ws)
        else if i < j then
          .error (.perr ⟨.parserKind, "bad indentation of a mapping entry", txt⟩)
        else
          match parseKeySplit txt with
          | none => .error (.perr ⟨.parserKind, "expected a mapping key", txt⟩)
          | some (k, tail) =>
            match tail with
            | [] =>
              match rest with
              | (j2, _) :: _ =>
                if i < j2 then
                  match parseF opts fuel (.block (lvl + 1) j2 rest) ws with
                  | .ok (v, rem, ws2) =>
                    match addPair opts acc k v ws2 txt with
                    | .ok (acc2, ws3) => parseF opts fuel (.mapItems lvl i rem acc2) ws3
                    | .error e => .error e
                  | .error e => .error e
                else if tooDeep opts (lvl + 1) then
                  .error (.perr ⟨.depthKind, "maximum load depth exceeded", txt⟩)
                else
                  match addPair opts acc k .nullV ws txt with
                  | .ok (acc2, ws2) => parseF opts fuel (.mapItems lvl i rest acc2) ws2
                  | .error e => .error e
              | [] =>
                if tooDeep opts (lvl + 1) then
                  .error (.perr ⟨.depthKind, "maximum load depth exceeded", txt⟩)
                else
                  match addPair opts acc k .nullV ws txt with
                  | .ok (acc2, ws2) => .ok (.mapV acc2.reverse, [], ws2)
                  | .error e => .error e
            | ' ' :: vtxt =>
              if tooDeep opts (lvl + 1) then
                .error (.perr ⟨.depthKind, "maximum load depth exceeded", txt⟩)
              else if vtxt == ['>'] then
                let body := rest.takeWhile (fun p => p.2.isEmpty || decide (i < p.1))
                let rem := rest.dropWhile (fun p => p.2.isEmpty || decide (i < p.1))
                match addPair opts acc k
                  (.strV (String.mk (foldBody (body.map Prod.snd)))) ws txt with
                | .ok (acc2, ws2) => parseF opts fuel (.mapItems lvl i rem acc2) ws2
                | .error e => .error e
              else
                match parseScalarPos vtxt with
                | .ok v =>
                  match addPair opts acc k v ws txt with
                  | .ok (acc2, ws2) => parseF opts fuel (.mapItems lvl i rest acc2) ws2
                  | .error e => .error e
                | .error e => .error (.perr e)
            | _ => .error (.perr ⟨.parserKind, "expected a space after the colon", txt⟩)) := rfl

theorem nodupStr_iff : ∀ l : List String, nodupStr l = true ↔ l.Nodup := by
  intro l
  induction l with
  | nil => simp [nodupStr]
  | cons k ks ih =>
    rw [nodupStr]
    simp only [Bool.and_eq_true, Bool.not_eq_true', List.nodup_cons]
    constructor
    · rintro ⟨h1, h2⟩
      refine ⟨?_, ih.mp h2⟩
      intro hmem
      rw [show (ks.contains k) = ks.elem k from rfl, List.elem_eq_true_of_mem hmem] at h1
      cases h1
    · rintro ⟨h1, h2⟩
      refine ⟨?_, ih.mpr h2⟩
      rw [show (ks.contains k) = ks.elem k from rfl]
      cases he : ks.elem k with
      | false => rfl
      | true => exact absurd (List.mem_of_elem_eq_true he) h1

/-- Adding a pair whose key is fresh never consults the anomaly machinery. -/
theorem addPair_fresh (opts : LoadOpts) {acc : List (String × YValue)} {k : String}
    (hk : ∀ p ∈ acc, p.1 ≠ k) (v : YValue) (ws : List Warning) (txt : Chars) :
    addPair opts acc k v ws txt = .ok ((k, v) :: acc, ws) := by
  rw [addPair, if_neg]
  simp only [List.any_eq_true, beq_iff_eq, not_exists, not_and]
  exact fun p hp => hk p hp

theorem scalarChars_ne_folded {v : YValue} (h : isInline v = true) :
    ((scalarChars v : Chars) == ['>']) = false := by
  have hgt : scalarChars v ≠ ['>'] := by
    match v with
    | .nullV => decide
    | .boolV true => decide
    | .boolV false => decide
    | .listV xs => exact show emptyListChars ≠ ['>'] by decide
    | .mapV ps => exact show emptyMapChars ≠ ['>'] by decide
    | .numV n =>
      obtain ⟨c, cs, hrep, hc⟩ := intRepr_head n
      show intRepr n ≠ ['>']
      rw [hrep]
      intro he
      have : c = '>' := (List.cons.injEq _ _ _ _ ▸ he).1
      rcases hc with h | h
      · rw [this] at h; exact absurd h (by decide)
      · rw [this] at h; exact absurd h (by decide)
    | .strV s =>
      show (if plainOk s.data then s.data else quoteChars s.data) ≠ ['>']
      by_cases hp : plainOk s.data
      · rw [if_pos hp]
        rcases hd : s.data with _ | ⟨c, cs⟩
        · rw [hd] at hp; simp [plainOk] at hp
        · rw [hd] at hp
          intro he
          have hc : c = '>' := (List.cons.injEq _ _ _ _ ▸ he).1
          have := (plainOk_props hp).1
          rw [hc] at this
          exact absurd this (by decide)
      · rw [if_neg hp, quoteChars]
        by_cases hdq : needsDQ s.data
        · rw [if_pos hdq, dqChars]
          intro he
          exact absurd (List.cons.injEq _ _ _ _ ▸ he).1 (by decide)
        · rw [if_neg hdq, sqChars]
          intro he
          exact absurd (List.cons.injEq _ _ _ _ ▸ he).1 (by decide)
  exact beq_eq_false_iff_ne.mpr hgt

theorem keyChars_head (k : String) :
    ∃ kc kcs, keyChars k = kc :: kcs ∧ kc ≠ '-' := by
  rw [keyChars]
  show ∃ kc kcs, (if plainOk k.data then k.data else quoteChars k.data) = kc :: kcs ∧ kc ≠ '-'
  by_cases hp : plainOk k.data
  · rw [if_pos hp]
    rcases hd : k.data with _ | ⟨c, cs⟩
    · rw [hd] at hp; simp [plainOk] at hp
    · rw [hd] at hp
      exact ⟨c, cs, rfl, (plainOk_props hp).2.1⟩
  · rw [if_neg hp, quoteChars]
    by_cases hdq : needsDQ k.data
    · rw [if_pos hdq, dqChars]
      exact ⟨'\"', _, rfl, by decide⟩
    · rw [if_neg hdq, sqChars]
      exact ⟨'\'', _, rfl, by decide⟩

theorem dumpSeq_nil_any (sk : SortKeys) (i : Nat) :
    ∀ df, dumpJobF sk df (.seq i []) = [] := by
  intro df
  cases df <;> rfl

theorem dumpPairs_nil_any (sk : SortKeys) (i : Nat) :
    ∀ df, dumpJobF sk df (.pairs i []) = [] := by
  intro df
  cases df <;> rfl

/-- The first line of a dumped nonempty sequence block is a sequence entry at
the block's indent. -/
theorem dumpSeq_head (sk : SortKeys) (i df : Nat) (x : YValue) (xs : List YValue)
    (hdf : 1 ≤ df) :
    ∃ t r o, dumpJobF sk df (.seq i (x :: xs)) = (i, t) :: r ∧ seqItemSplit t = some o := by
  obtain ⟨f, rfl⟩ : ∃ f, df = f + 1 := ⟨df - 1, by omega⟩
  rw [dumpJobF_seq_cons]
  by_cases hx : isInline x = true
  · rw [if_pos hx]
    exact ⟨'-' :: ' ' :: scalarChars x, _, some (scalarChars x), rfl,
      seqItemSplit_dashSpace _⟩
  · rw [if_neg hx]
    exact ⟨['-'], _, none, rfl, seqItemSplit_dashNil⟩

/-- The first line of a dumped nonempty mapping block is a mapping entry at
the block's indent. -/
theorem dumpPairs_head (sk : SortKeys) (i df : Nat) (k : String) (v : YValue)
    (ps : List (String × YValue)) (hdf : 1 ≤ df) :
    ∃ t r tail, dumpJobF sk df (.pairs i ((k, v) :: ps)) = (i, t) :: r ∧
      parseKeySplit t = some (k, tail) ∧ seqItemSplit t = none := by
  obtain ⟨f, rfl⟩ : ∃ f, df = f + 1 := ⟨df - 1, by omega⟩
  obtain ⟨kc, kcs, hkc, hkdash⟩ := keyChars_head k
  rw [dumpJobF_pairs_cons]
  by_cases hv : isInline v = true
  · rw [if_pos hv]
    refine ⟨keyChars k ++ ':' :: ' ' :: scalarChars v, _, ' ' :: scalarChars v, rfl,
      parseKeySplit_keyChars k _, ?_⟩
    rw [hkc, List.cons_append]
    exact seqItemSplit_none_of_head hkdash _
  · rw [if_neg hv]
    refine ⟨keyChars k ++ [':'], _, [], rfl, ?_, ?_⟩
    · rw [show (keyChars k ++ [':'] : Chars) = keyChars k ++ ':' :: [] from rfl]
      exact parseKeySplit_keyChars k []
    · rw [hkc, List.cons_append]
      exact seqItemSplit_none_of_head hkdash _

theorem ysizeL_le_of_mem {x : YValue} :
    ∀ {xs : List YValue}, x ∈ xs → ysize x ≤ ysizeL xs := by
  intro xs
  induction xs with
  | nil => intro h; cases h
  | cons y ys ih =>
    intro h
    rw [ysizeL_cons]
    rcases List.mem_cons.mp h with h | h
    · subst h; omega
    · have := ih h; omega

theorem ysizeP_le_of_mem {p : String × YValue} :
    ∀ {ps : List (String × YValue)}, p ∈ ps → ysize p.2 ≤ ysizeP ps := by
  intro ps
  induction ps with
  | nil => intro h; cases h
  | cons q qs ih =>
    intro h
    rw [ysizeP_cons]
    rcases List.mem_cons.mp h with h | h
    · subst h; omega
    · have := ih h; omega

theorem sortPairs_insertion (ps : List (String × YValue)) :
    sortPairs .insertion ps = ps := rfl

theorem parseF_seq_nil (opts : LoadOpts) (fuel lvl i : Nat) (acc : List YValue)
    (ws : List Warning) :
    parseF opts (fuel + 1) (.seqItems lvl i [] acc) ws = .ok (.listV acc.reverse, [], ws) := by
  rw [parseF_seq_eq]

theorem parseF_seq_stop (opts : LoadOpts) (fuel lvl : Nat) {j i : Nat} (hj : j < i)
    (txt : Chars) (rest : List (Nat × Chars)) (acc : List YValue) (ws : List Warning) :
    parseF opts (fuel + 1) (.seqItems lvl i ((j, txt) :: rest) acc) ws =
      .ok (.listV acc.reverse, (j, txt) :: rest, ws) := by
  rw [parseF_seq_eq]
  simp [hj]

theorem parseF_seq_step_inline (opts : LoadOpts) (fuel lvl i : Nat) {txt vtxt : Chars}
    {v : YValue} (hs : seqItemSplit txt = some (some vtxt))
    (hd : tooDeep opts (lvl + 1) = false) (hv : parseScalarPos vtxt = .ok v)
    (rest : List (Nat × Chars)) (acc : List YValue) (ws : List Warning) :
    parseF opts (fuel + 1) (.seqItems lvl i ((i, txt) :: rest) acc) ws =
      parseF opts fuel (.seqItems lvl i rest (v :: acc)) ws := by
  rw [parseF_seq_eq]
  simp [hs, hd, hv]

theorem parseF_seq_step_nested (opts : LoadOpts) (fuel lvl i : Nat) {txt : Chars}
    (hs : seqItemSplit txt = some none) {j2 : Nat} (hj : i < j2) (t2 : Chars)
    (rest2 : List (Nat × Chars)) (acc : List YValue) (ws : List Warning)
    {v : YValue} {rem : List (Nat × Chars)} {ws2 : List Warning}
    (hb : parseF opts fuel (.block (lvl + 1) j2 ((j2, t2) :: rest2)) ws = .ok (v, rem, ws2)) :
    parseF opts (fuel + 1) (.seqItems lvl i ((i, txt) :: (j2, t2) :: rest2) acc) ws =
      parseF opts fuel (.seqItems lvl i rem (v :: acc)) ws2 := by
  rw [parseF_seq_eq]
  simp [hs, hj, hb]

theorem seqItems_inv (opts : LoadOpts) :
    ∀ (xs : List YValue), (∀ x ∈ xs, BlockInv x) → wfKeysL xs = true →
    ∀ (fuel dfuel i lvl : Nat) (rest : List (Nat × Chars)) (acc : List YValue)
      (ws : List Warning),
      (∀ x ∈ xs, depthFits opts (lvl + 1) x) →
      2 * ysizeL xs + 1 ≤ dfuel →
      2 * (dumpJobF .insertion dfuel (.seq i xs)).length + 2 * rest.length + 2 ≤ fuel →
      (∀ p, rest.head? = some p → p.1 < i) →
      parseF opts fuel (.seqItems lvl i (dumpJobF .insertion dfuel (.seq i xs) ++ rest) acc)
          ws =
        .ok (.listV (acc.reverse ++ xs), rest, ws) := by
  intro xs
  induction xs with
  | nil =>
    intro _ _ fuel dfuel i lvl rest acc ws _ hdf hfuel hrest
    rw [dumpSeq_nil_any] at hfuel ⊢
    rw [List.nil_append]
    simp only [List.length_nil] at hfuel
    obtain ⟨f, rfl⟩ : ∃ f, fuel = f + 1 := ⟨fuel - 1, by omega⟩
    cases rest with
    | nil =>
      rw [parseF_seq_nil]
      simp
    | cons p rest' =>
      obtain ⟨j, txt⟩ := p
      rw [parseF_seq_stop opts f lvl (hrest (j, txt) rfl) txt rest' acc ws]
      simp
  | cons x xs ih =>
    intro hIH hwf fuel dfuel i lvl rest acc ws hdeep hdf hfuel hrest
    have hys := ysize_pos x
    have hwx : wfKeys x = true ∧ wfKeysL xs = true := by
      rw [wfKeysL] at hwf
      simpa [Bool.and_eq_true] using hwf
    have hIHtail : ∀ y ∈ xs, BlockInv y := fun y hy => hIH y (List.mem_cons_of_mem _ hy)
    have hdeeptail : ∀ y ∈ xs, depthFits opts (lvl + 1) y :=
      fun y hy => hdeep y (List.mem_cons_of_mem _ hy)
    rw [ysizeL_cons] at hdf
    obtain ⟨df, rfl⟩ : ∃ df, dfuel = df + 1 := ⟨dfuel - 1, by omega⟩
    have hdftail : 2 * ysizeL xs + 1 ≤ df := by omega
    rw [dumpJobF_seq_cons] at hfuel ⊢
    have hdx : depthFits opts (lvl + 1) x := hdeep x (List.mem_cons_self _ _)
    by_cases hx : isInline x = true
    · rw [if_pos hx] at hfuel ⊢
      rw [List.cons_append, List.nil_append] at hfuel
      rw [List.cons_append, List.nil_append, List.cons_append]
      simp only [List.length_cons, List.length_append] at hfuel
      obtain ⟨f, rfl⟩ : ∃ f, fuel = f + 1 := ⟨fuel - 1, by omega⟩
      have hfueltail :
          2 * (dumpJobF .insertion df (.seq i xs)).length + 2 * rest.length + 2 ≤ f := by
        omega
      rw [parseF_seq_step_inline opts f lvl i (seqItemSplit_dashSpace _)
        (tooDeep_eq_false hdx) (parseScalarPos_scalarChars x hx)]
      rw [ih hIHtail hwx.2 f df i lvl rest (x :: acc) ws hdeeptail hdftail hfueltail hrest]
      simp
    · rw [if_neg hx] at hfuel ⊢
      rw [List.cons_append] at hfuel
      rw [List.cons_append, List.cons_append, List.append_assoc]
      simp only [List.length_cons, List.length_append] at hfuel
      obtain ⟨f, rfl⟩ : ∃ f, fuel = f + 1 := ⟨fuel - 1, by omega⟩
      have hdox : 2 * ysize x ≤ df := by omega
      obtain ⟨t, r1, hhead, _⟩ := dumpOne_head .insertion (i + 2) hdox
      have hrest2 : ∀ p, (dumpJobF .insertion df (.seq i xs) ++ rest).head? = some p →
          p.1 < i + 2 := by
        intro p hp
        cases xs with
        | nil =>
          rw [dumpSeq_nil_any, List.nil_append] at hp
          have := hrest p hp
          omega
        | cons y ys =>
          obtain ⟨t2, r2, o2, hh2, _⟩ := dumpSeq_head .insertion i df y ys (by
            have := ysize_pos y
            rw [ysizeL_cons] at hdftail
            omega)
          rw [hh2, List.cons_append] at hp
          simp only [List.head?_cons, Option.some.injEq] at hp
          rw [← hp]
          omega
      have hlen1 : (dumpJobF .insertion df (.one (i + 2) x)).length = r1.length + 1 := by
        rw [hhead]
        simp
      have hfx : 2 * (dumpJobF .insertion df (.one (i + 2) x)).length +
          2 * (dumpJobF .insertion df (.seq i xs) ++ rest).length + 3 ≤ f := by
        simp only [List.length_append]
        rw [hlen1] at hfuel ⊢
        omega
      have hstep := hIH x (List.mem_cons_self _ _) opts f df (i + 2) (lvl + 1)
        (dumpJobF .insertion df (.seq i xs) ++ rest) ws hwx.1 hdx hdox hfx hrest2
      have hfueltail :
          2 * (dumpJobF .insertion df (.seq i xs)).length + 2 * rest.length + 2 ≤ f := by
        simp only [List.length_append] at hfx
        omega
      have hlt : i < i + 2 := by omega
      rw [hhead, List.cons_append] at hstep ⊢
      rw [parseF_seq_step_nested opts f lvl i seqItemSplit_dashNil hlt t
        (r1 ++ (dumpJobF .insertion df (.seq i xs) ++ rest)) acc ws hstep]
      rw [ih hIHtail hwx.2 f df i lvl rest (x :: acc) ws hdeeptail hdftail hfueltail hrest]
      simp

theorem parseF_map_nil (opts : LoadOpts) (fuel lvl i : Nat) (acc : List (String × YValue))
    (ws : List Warning) :
    parseF opts (fuel + 1) (.mapItems lvl i [] acc) ws = .ok (.mapV acc.reverse, [], ws) := by
  rw [parseF_map_eq]

theorem parseF_map_stop (opts : LoadOpts) (fuel lvl : Nat) {j i : Nat} (hj : j < i)
    (txt : Chars) (rest : List (Nat × Chars)) (acc : List (String × YValue))
    (ws : List Warning) :
    parseF opts (fuel + 1) (.mapItems lvl i ((j, txt) :: rest) acc) ws =
      .ok (.mapV acc.reverse, (j, txt) :: rest, ws) := by
  rw [parseF_map_eq]
  simp [hj]

theorem parseF_map_step_inline (opts : LoadOpts) (fuel lvl i : Nat) {txt vtxt : Chars}
    {k : String} {v : YValue} (hk : parseKeySplit txt = some (k, ' ' :: vtxt))
    (hd : tooDeep opts (lvl + 1) = false) (hgt : (vtxt == ['>']) = false)
    (hv : parseScalarPos vtxt = .ok v) {acc acc2 : List (String × YValue)}
    {ws ws2 : List Warning} (ha : addPair opts acc k v ws txt = .ok (acc2, ws2))
    (rest : List (Nat × Chars)) :
    parseF opts (fuel + 1) (.mapItems lvl i ((i, txt) :: rest) acc) ws =
      parseF opts fuel (.mapItems lvl i rest acc2) ws2 := by
  rw [parseF_map_eq]
  simp [hk, hd, hgt, hv, ha]

theorem parseF_map_step_nested (opts : LoadOpts) (fuel lvl i : Nat) {txt : Chars}
    {k : String} (hk : parseKeySplit txt = some (k, [])) {j2 : Nat} (hj : i < j2)
    (t2 : Chars) (rest2 : List (Nat × Chars)) {acc acc2 : List (String × YValue)}
    {ws ws2 ws3 : List Warning} {v : YValue} {rem : List (Nat × Chars)}
    (hb : parseF opts fuel (.block (lvl + 1) j2 ((j2, t2) :: rest2)) ws = .ok (v, rem, ws2))
    (ha : addPair opts acc k v ws2 txt = .ok (acc2, ws3)) :
    parseF opts (fuel + 1) (.mapItems lvl i ((i, txt) :: (j2, t2) :: rest2) acc) ws =
      parseF opts fuel (.mapItems lvl i rem acc2) ws3 := by
  rw [parseF_map_eq]
  simp [hk, hj, hb, ha]

theorem mapItems_inv (opts : LoadOpts) :
    ∀ (ps : List (String × YValue)), (∀ p ∈ ps, BlockInv p.2) → wfKeysP ps = true →
    ∀ (fuel dfuel i lvl : Nat) (rest : List (Nat × Chars)) (acc : List (String × YValue))
      (ws : List Warning),
      (∀ p ∈ ps, depthFits opts (lvl + 1) p.2) →
      (acc.map Prod.fst ++ ps.map Prod.fst).Nodup →
      2 * ysizeP ps + 1 ≤ dfuel →
      2 * (dumpJobF .insertion dfuel (.pairs i ps)).length + 2 * rest.length + 2 ≤ fuel →
      (∀ p, rest.head? = some p → p.1 < i) →
      parseF opts fuel (.mapItems lvl i (dumpJobF .insertion dfuel (.pairs i ps) ++ rest) acc)
          ws =
        .ok (.mapV (acc.reverse ++ ps), rest, ws) := by
  intro ps
  induction ps with
  | nil =>
    intro _ _ fuel dfuel i lvl rest acc ws _ _ hdf hfuel hrest
    rw [dumpPairs_nil_any] at hfuel ⊢
    rw [List.nil_append]
    simp only [List.length_nil] at hfuel
    obtain ⟨f, rfl⟩ : ∃ f, fuel = f + 1 := ⟨fuel - 1, by omega⟩
    cases rest with
    | nil =>
      rw [parseF_map_nil]
      simp
    | cons p rest' =>
      obtain ⟨j, txt⟩ := p
      rw [parseF_map_stop opts f lvl (hrest (j, txt) rfl) txt rest' acc ws]
      simp
  | cons p ps ih =>
    obtain ⟨k, v⟩ := p
    intro hIH hwf fuel dfuel i lvl rest acc ws hdeep hkeys hdf hfuel hrest
    have hys := ysize_pos v
    have hwx : wfKeys v = true ∧ wfKeysP ps = true := by
      rw [wfKeysP] at hwf
      simpa [Bool.and_eq_true] using hwf
    have hIHtail : ∀ q ∈ ps, BlockInv q.2 := fun q hq => hIH q (List.mem_cons_of_mem _ hq)
    have hdeeptail : ∀ q ∈ ps, depthFits opts (lvl + 1) q.2 :=
      fun q hq => hdeep q (List.mem_cons_of_mem _ hq)
    have hfresh : ∀ q ∈ acc, q.1 ≠ k := by
      intro q hq he
      rw [List.nodup_append] at hkeys
      exact hkeys.2.2 (List.mem_map_of_mem Prod.fst hq)
        (by rw [he]; simp)
    have hkeystail : ((List.map Prod.fst ((k, v) :: acc)) ++ ps.map Prod.fst).Nodup := by
      have hperm : (acc.map Prod.fst ++ k :: ps.map Prod.fst).Perm
          (k :: (acc.map Prod.fst ++ ps.map Prod.fst)) := List.perm_middle
      have h1 : (acc.map Prod.fst ++ ((k, v) :: ps).map Prod.fst) =
          acc.map Prod.fst ++ k :: ps.map Prod.fst := by simp
      rw [h1] at hkeys
      have := hperm.nodup hkeys
      simpa using this
    have hdv : depthFits opts (lvl + 1) v := hdeep (k, v) (List.mem_cons_self _ _)
    rw [ysizeP_cons, show ((k, v) : String × YValue).2 = v from rfl] at hdf
    obtain ⟨df, rfl⟩ : ∃ df, dfuel = df + 1 := ⟨dfuel - 1, by omega⟩
    have hdftail : 2 * ysizeP ps + 1 ≤ df := by omega
    rw [dumpJobF_pairs_cons] at hfuel ⊢
    by_cases hv : isInline v = true
    · rw [if_pos hv] at hfuel ⊢
      rw [List.cons_append, List.nil_append] at hfuel
      rw [List.cons_append, List.nil_append, List.cons_append]
      simp only [List.length_cons, List.length_append] at hfuel
      obtain ⟨f, rfl⟩ : ∃ f, fuel = f + 1 := ⟨fuel - 1, by omega⟩
      have hfueltail :
          2 * (dumpJobF .insertion df (.pairs i ps)).length + 2 * rest.length + 2 ≤ f := by
        omega
      have ha := addPair_fresh opts hfresh v ws (keyChars k ++ ':' :: ' ' :: scalarChars v)
      rw [parseF_map_step_inline opts f lvl i (parseKeySplit_keyChars k (' ' :: scalarChars v))
        (tooDeep_eq_false hdv) (scalarChars_ne_folded hv)
        (parseScalarPos_scalarChars v hv) ha]
      rw [ih hIHtail hwx.2 f df i lvl rest ((k, v) :: acc) ws hdeeptail hkeystail hdftail
        hfueltail hrest]
      simp
    · rw [if_neg hv] at hfuel ⊢
      rw [List.cons_append] at hfuel
      rw [List.cons_append, List.cons_append, List.append_assoc]
      simp only [List.length_cons, List.length_append] at hfuel
      obtain ⟨f, rfl⟩ : ∃ f, fuel = f + 1 := ⟨fuel - 1, by omega⟩
      have hdov : 2 * ysize v ≤ df := by omega
      obtain ⟨t, r1, hhead, _⟩ := dumpOne_head .insertion (i + 2) hdov
      have hrest2 : ∀ q, (dumpJobF .insertion df (.pairs i ps) ++ rest).head? = some q →
          q.1 < i + 2 := by
        intro q hq
        cases ps with
        | nil =>
          rw [dumpPairs_nil_any, List.nil_append] at hq
          have := hrest q hq
          omega
        | cons p2 ps2 =>
          obtain ⟨k2, v2⟩ := p2
          obtain ⟨t2, r2, tl2, hh2, _, _⟩ := dumpPairs_head .insertion i df k2 v2 ps2 (by
            have := ysize_pos v2
            rw [ysizeP_cons] at hdftail
            omega)
          rw [hh2, List.cons_append] at hq
          simp only [List.head?_cons, Option.some.injEq] at hq
          rw [← hq]
          omega
      have hlen1 : (dumpJobF .insertion df (.one (i + 2) v)).length = r1.length + 1 := by
        rw [hhead]
        simp
      have hfv : 2 * (dumpJobF .insertion df (.one (i + 2) v)).length +
          2 * (dumpJobF .insertion df (.pairs i ps) ++ rest).length + 3 ≤ f := by
        simp only [List.length_append]
        rw [hlen1] at hfuel ⊢
        omega
      have hstep := hIH (k, v) (List.mem_cons_self _ _) opts f df (i + 2) (lvl + 1)
        (dumpJobF .insertion df (.pairs i ps) ++ rest) ws hwx.1 hdv hdov hfv hrest2
      have hfueltail :
          2 * (dumpJobF .insertion df (.pairs i ps)).length + 2 * rest.length + 2 ≤ f := by
        simp only [List.length_append] at hfv
        omega
      have hlt : i < i + 2 := by omega
      rw [hhead, List.cons_append] at hstep ⊢
      have ha := addPair_fresh opts hfresh v ws (keyChars k ++ [':'])
      rw [parseF_map_step_nested opts f lvl i
        (show parseKeySplit (keyChars k ++ [':']) = some (k, []) from
          parseKeySplit_keyChars k []) hlt t
        (r1 ++ (dumpJobF .insertion df (.pairs i ps) ++ rest)) hstep ha]
      rw [ih hIHtail hwx.2 f df i lvl rest ((k, v) :: acc) ws hdeeptail hkeystail hdftail
        hfueltail hrest]
      simp

theorem parseF_block_scalar (opts : LoadOpts) (fuel : Nat) {lvl : Nat} (i j : Nat)
    {txt : Chars} (hd : tooDeep opts lvl = false) (hs : seqItemSplit txt = none)
    (hk : parseKeySplit txt = none) {v : YValue} (hv : parseScalarPos txt = .ok v)
    (rest : List (Nat × Chars)) (ws : List Warning) :
    parseF opts (fuel + 1) (.block lvl i ((j, txt) :: rest)) ws = .ok (v, rest, ws) := by
  rw [parseF_block_eq]
  simp [hd, hs, hk, hv]

theorem parseF_block_toSeq (opts : LoadOpts) (fuel : Nat) {lvl : Nat} (i j : Nat)
    {txt : Chars} (hd : tooDeep opts lvl = false) {o : Option Chars}
    (hs : seqItemSplit txt = some o) (rest : List (Nat × Chars)) (ws : List Warning) :
    parseF opts (fuel + 1) (.block lvl i ((j, txt) :: rest)) ws =
      parseF opts fuel (.seqItems lvl i ((j, txt) :: rest) []) ws := by
  rw [parseF_block_eq]
  simp [hd, hs]

theorem parseF_block_toMap (opts : LoadOpts) (fuel : Nat) {lvl : Nat} (i j : Nat)
    {txt : Chars} (hd : tooDeep opts lvl = false) (hs : seqItemSplit txt = none)
    {kt : String × Chars} (hk : parseKeySplit txt = some kt) (rest : List (Nat × Chars))
    (ws : List Warning) :
    parseF opts (fuel + 1) (.block lvl i ((j, txt) :: rest)) ws =
      parseF opts fuel (.mapItems lvl i ((j, txt) :: rest) []) ws := by
  rw [parseF_block_eq]
  simp [hd, hs, hk]

/-- Printer completeness: parsing the lines dumped for a well-formed value,
followed by any less-indented rest, returns exactly that value. -/
theorem blockInv_all : ∀ (N : Nat) (v : YValue), ysize v ≤ N → BlockInv v := by
  intro N
  induction N with
  | zero =>
    intro v hv
    have := ysize_pos v
    omega
  | succ N ihN =>
    intro v hN opts fuel dfuel i lvl rest ws hwf hdeep hdfuel hfuel hrest
    have h1 := ysize_pos v
    obtain ⟨df, rfl⟩ : ∃ df, dfuel = df + 1 := ⟨dfuel - 1, by omega⟩
    by_cases hv : isInline v = true
    · rw [dumpJobF_one_inline .insertion df i hv] at hfuel ⊢
      rw [List.singleton_append]
      simp only [List.length_singleton] at hfuel
      obtain ⟨f, rfl⟩ : ∃ f, fuel = f + 1 := ⟨fuel - 1, by omega⟩
      exact parseF_block_scalar opts f i i (tooDeep_eq_false hdeep)
        (seqItemSplit_scalarChars hv) (parseKeySplit_scalarChars hv)
        (parseScalarPos_scalarChars v hv) rest ws
    · match v with
      | .nullV => simp [isInline] at hv
      | .boolV _ => simp [isInline] at hv
      | .numV _ => simp [isInline] at hv
      | .strV _ => simp [isInline] at hv
      | .listV xs =>
        cases xs with
        | nil => simp [isInline] at hv
        | cons x xs =>
          rw [dumpJobF_one_listV .insertion df i (by simpa using hv)] at hfuel ⊢
          rw [ysize_listV, ysizeL_cons] at hdfuel hN
          have hysx := ysize_pos x
          obtain ⟨t, r, o, hh, hs⟩ := dumpSeq_head .insertion i df x xs (by omega)
          obtain ⟨f, rfl⟩ : ∃ f, fuel = f + 1 := ⟨fuel - 1, by omega⟩
          rw [hh, List.cons_append]
          rw [parseF_block_toSeq opts f i i (tooDeep_eq_false hdeep) hs]
          rw [← List.cons_append, ← hh]
          have hres := seqItems_inv opts (x :: xs)
            (fun y hy => ihN y (by
              have := ysizeL_le_of_mem hy
              rw [ysizeL_cons] at this
              omega))
            (by rw [wfKeys] at hwf; exact hwf)
            f df i lvl rest [] ws
            (fun y hy => depthFits_child_list hdeep hy)
            (by rw [ysizeL_cons]; omega)
            (by rw [hh] at hfuel ⊢; simp only [List.length_cons] at hfuel ⊢; omega)
            hrest
          rw [hres]
          simp
      | .mapV ps =>
        cases ps with
        | nil => simp [isInline] at hv
        | cons p ps =>
          obtain ⟨k, v2⟩ := p
          rw [dumpJobF_one_mapV .insertion df i (by simpa using hv), sortPairs_insertion]
            at hfuel ⊢
          rw [ysize_mapV, ysizeP_cons, show ((k, v2) : String × YValue).2 = v2 from rfl]
            at hdfuel hN
          have hysv := ysize_pos v2
          obtain ⟨t, r, tl, hh, hkt, hs⟩ := dumpPairs_head .insertion i df k v2 ps (by omega)
          obtain ⟨f, rfl⟩ : ∃ f, fuel = f + 1 := ⟨fuel - 1, by omega⟩
          rw [hh, List.cons_append]
          rw [parseF_block_toMap opts f i i (tooDeep_eq_false hdeep) hs hkt]
          rw [← List.cons_append, ← hh]
          have hwf2 : nodupStr (((k, v2) :: ps).map Prod.fst) = true ∧
              wfKeysP ((k, v2) :: ps) = true := by
            rw [wfKeys] at hwf
            simpa [Bool.and_eq_true] using hwf
          have hres := mapItems_inv opts ((k, v2) :: ps)
            (fun q hq => ihN q.2 (by
              have := ysizeP_le_of_mem hq
              rw [ysizeP_cons, show ((k, v2) : String × YValue).2 = v2 from rfl] at this
              omega))
            hwf2.2
            f df i lvl rest [] ws
            (fun q hq => depthFits_child_map hdeep hq)
            (by
              rw [List.map_nil, List.nil_append]
              exact (nodupStr_iff _).mp hwf2.1)
            (by
              rw [ysizeP_cons, show ((k, v2) : String × YValue).2 = v2 from rfl]
              omega)
            (by rw [hh] at hfuel ⊢; simp only [List.length_cons] at hfuel ⊢; omega)
            hrest
          rw [hres]
          simp

theorem blockInv_any (v : YValue) : BlockInv v := blockInv_all (ysize v) v le_rfl

theorem loadCore_ok (opts : LoadOpts) (lines : List (Nat × Chars)) (j : Nat) (t : Chars)
    (r : List (Nat × Chars)) (v : YValue) (ws : List Warning)
    (htab : lines.find? (fun p => p.2.headD 'x' == '\t') = none)
    (hl : lines = (j, t) :: r)
    (hp : parseF opts (parseFuel lines) (.block 1 j lines) [] = .ok (v, [], ws)) :
    loadCore opts lines = .ok (v, ws) := by
  subst hl
  rw [loadCore, htab]
  simp [hp]

/-- Dumped text survives a full load: the printer is complete for any
well-formed value the configured depth guard admits. -/
theorem load_dumpText (opts : LoadOpts) (st : DumpState) (v : YValue)
    (hsk : st.sortKeys = .insertion)
    (hwf : wfKeys v = true)
    (hdepth : depthFits opts 1 v) :
    load opts (dumpText st v) = .ok (v, []) := by
  have hgood : ∀ p ∈ dumpJobF .insertion (2 * ysize v + 2) (.one 0 v), goodTxt p.2 :=
    fun p hp => dumpJobF_good .insertion _ _ p hp
  have hdata : (String.mk (renderLines (dumpJobF .insertion (2 * ysize v + 2) (.one 0 v)))).data
      = renderLines (dumpJobF .insertion (2 * ysize v + 2) (.one 0 v)) := rfl
  have hlines : toLines (renderLines (dumpJobF .insertion (2 * ysize v + 2) (.one 0 v)))
      = dumpJobF .insertion (2 * ysize v + 2) (.one 0 v) := by
    apply toLines_renderLines
    intro p hp
    have hg := hgood p hp
    exact ⟨hg.2.2.2, hg.2.1⟩
  have htab : (dumpJobF .insertion (2 * ysize v + 2) (.one 0 v)).find?
      (fun p => p.2.headD 'x' == '\t') = none := by
    rw [List.find?_eq_none]
    intro p hp
    have hg := hgood p hp
    cases hpc : p.2 with
    | nil => simp [List.headD]
    | cons c cs =>
      have : c ≠ '\t' := by
        intro he
        apply hg.2.2.1
        rw [hpc, he]
        rfl
      simp [List.headD, this]
  obtain ⟨t, r, hh, ht⟩ :=
    @dumpOne_head .insertion v 0 (2 * ysize v + 2) (by omega)
  have hinv := blockInv_any v opts
    (parseFuel (dumpJobF .insertion (2 * ysize v + 2) (.one 0 v)))
    (2 * ysize v + 2) 0 1 [] [] hwf hdepth (by omega)
    (by simp only [parseFuel, List.length_nil]; omega)
    (by intro p hp; simp at hp)
  rw [List.append_nil] at hinv
  show loadDocLines opts (toLines (String.mk (renderLines (dumpJobF st.sortKeys (2 * ysize v + 2) (.one 0 v)))).data) = _
  rw [hsk, hdata, hlines, loadDocLines,
    loadCore_ok opts _ 0 t r v [] htab hh hinv]

theorem vDepth_isInline {v : YValue} (h : isInline v = true) : vDepth v = 1 := by
  match v with
  | .nullV => simp [vDepth]
  | .boolV _ => simp [vDepth]
  | .numV _ => simp [vDepth]
  | .strV _ => simp [vDepth]
  | .listV [] => simp [vDepth]
  | .listV (x :: xs) => simp [isInline] at h
  | .mapV [] => simp [vDepth]
  | .mapV (p :: ps) => simp [isInline] at h

theorem vDepth_listV_cons (x : YValue) (xs : List YValue) :
    vDepth (.listV (x :: xs)) = 1 + vDepthL (x :: xs) := by
  rw [vDepth]

theorem vDepth_mapV_cons (p : String × YValue) (ps : List (String × YValue)) :
    vDepth (.mapV (p :: ps)) = 1 + vDepthP (p :: ps) := by
  rw [vDepth]

theorem vDepthL_mem_ge (x : YValue) (xs : List YValue) :
    ∃ y ∈ x :: xs, vDepthL (x :: xs) ≤ vDepth y := by
  induction xs generalizing x with
  | nil => exact ⟨x, List.mem_cons_self _ _, by rw [vDepthL, vDepthL]; omega⟩
  | cons z zs ih =>
    obtain ⟨y, hy, hyv⟩ := ih z
    by_cases hc : vDepthL (z :: zs) ≤ vDepth x
    · refine ⟨x, List.mem_cons_self _ _, ?_⟩
      rw [vDepthL]
      omega
    · refine ⟨y, List.mem_cons_of_mem _ hy, ?_⟩
      rw [vDepthL]
      omega

theorem vDepthP_mem_ge (p : String × YValue) (ps : List (String × YValue)) :
    ∃ q ∈ p :: ps, vDepthP (p :: ps) ≤ vDepth q.2 := by
  induction ps generalizing p with
  | nil => exact ⟨p, List.mem_cons_self _ _, by rw [vDepthP, vDepthP]; omega⟩
  | cons z zs ih =>
    obtain ⟨q, hq, hqv⟩ := ih z
    by_cases hc : vDepthP (z :: zs) ≤ vDepth p.2
    · refine ⟨p, List.mem_cons_self _ _, ?_⟩
      rw [vDepthP]
      omega
    · refine ⟨q, List.mem_cons_of_mem _ hq, ?_⟩
      rw [vDepthP]
      omega

theorem tooDeep_eq_true {opts : LoadOpts} {m lvl : Nat} (hm : opts.maxDepth = some m)
    (h : m < lvl) : tooDeep opts lvl = true := by
  rw [tooDeep, hm]
  simpa using h

theorem tooDeep_false_le {opts : LoadOpts} {m lvl : Nat} (hm : opts.maxDepth = some m)
    (h : tooDeep opts lvl = false) : lvl ≤ m := by
  rw [tooDeep, hm] at h
  simpa using h

theorem depthFits_of_bound {opts : LoadOpts} {m lvl : Nat} (hm : opts.maxDepth = some m)
    {v : YValue} (h : lvl + vDepth v ≤ m + 1) : depthFits opts lvl v := by
  intro m2 hm2
  rw [hm] at hm2
  injection hm2 with e
  rw [← e]
  exact h

theorem parseF_block_deep (opts : LoadOpts) (fuel lvl i : Nat)
    (lines : List (Nat × Chars)) (ws : List Warning)
    (hd : tooDeep opts lvl = true) :
    parseF opts (fuel + 1) (.block lvl i lines) ws =
      .error (.perr ⟨.depthKind, "maximum load depth exceeded", (lines.headD (0, [])).2⟩) := by
  rw [parseF_block_eq]
  simp [hd]

theorem parseF_seq_step_inline_deep (opts : LoadOpts) (fuel lvl i : Nat) {txt vtxt : Chars}
    (hs : seqItemSplit txt = some (some vtxt))
    (hd : tooDeep opts (lvl + 1) = true)
    (rest : List (Nat × Chars)) (acc : List YValue) (ws : List Warning) :
    parseF opts (fuel + 1) (.seqItems lvl i ((i, txt) :: rest) acc) ws =
      .error (.perr ⟨.depthKind, "maximum load depth exceeded", txt⟩) := by
  rw [parseF_seq_eq]
  simp [hs, hd]

theorem parseF_seq_step_nested_err (opts : LoadOpts) (fuel lvl i : Nat) {txt : Chars}
    (hs : seqItemSplit txt = some none) {j2 : Nat} (hj : i < j2) (t2 : Chars)
    (rest2 : List (Nat × Chars)) (acc : List YValue) (ws : List Warning)
    {e : LoadErr}
    (hb : parseF opts fuel (.block (lvl + 1) j2 ((j2, t2) :: rest2)) ws = .error e) :
    parseF opts (fuel + 1) (.seqItems lvl i ((i, txt) :: (j2, t2) :: rest2) acc) ws =
      .error e := by
  rw [parseF_seq_eq]
  simp [hs, hj, hb]

theorem parseF_map_step_inline_deep (opts : LoadOpts) (fuel lvl i : Nat) {txt vtxt : Chars}
    {k : String} (hk : parseKeySplit txt = some (k, ' ' :: vtxt))
    (hd : tooDeep opts (lvl + 1) = true)
    (rest : List (Nat × Chars)) (acc : List (String × YValue)) (ws : List Warning) :
    parseF opts (fuel + 1) (.mapItems lvl i ((i, txt) :: rest) acc) ws =
      .error (.perr ⟨.depthKind, "maximum load depth exceeded", txt⟩) := by
  rw [parseF_map_eq]
  simp [hk, hd]

theorem parseF_map_step_nested_err (opts : LoadOpts) (fuel lvl i : Nat) {txt : Chars}
    {k : String} (hk : parseKeySplit txt = some (k, [])) {j2 : Nat} (hj : i < j2)
    (t2 : Chars) (rest2 : List (Nat × Chars)) (acc : List (String × YValue))
    (ws : List Warning) {e : LoadErr}
    (hb : parseF opts fuel (.block (lvl + 1) j2 ((j2, t2) :: rest2)) ws = .error e) :
    parseF opts (fuel + 1) (.mapItems lvl i ((i, txt) :: (j2, t2) :: rest2) acc) ws =
      .error e := by
  rw [parseF_map_eq]
  simp [hk, hj, hb]

theorem seqItems_err (opts : LoadOpts) {m : Nat} (hm : opts.maxDepth = some m) :
    ∀ (xs : List YValue), (∀ x ∈ xs, BlockErr x) → wfKeysL xs = true →
    ∀ (fuel dfuel i lvl : Nat) (rest : List (Nat × Chars)) (acc : List YValue)
      (ws : List Warning),
      (∃ y ∈ xs, m + 1 < lvl + 1 + vDepth y) →
      2 * ysizeL xs + 1 ≤ dfuel →
      2 * (dumpJobF .insertion dfuel (.seq i xs)).length + 2 * rest.length + 2 ≤ fuel →
      (∀ p, rest.head? = some p → p.1 < i) →
      ∃ t, parseF opts fuel
          (.seqItems lvl i (dumpJobF .insertion dfuel (.seq i xs) ++ rest) acc) ws =
        .error (.perr ⟨.depthKind, "maximum load depth exceeded", t⟩) := by
  intro xs
  induction xs with
  | nil =>
    intro _ _ fuel dfuel i lvl rest acc ws hviol _ _ _
    obtain ⟨y, hy, _⟩ := hviol
    cases hy
  | cons x xs ih =>
    intro hErr hwf fuel dfuel i lvl rest acc ws hviol hdf hfuel hrest
    have hys := ysize_pos x
    have hwx : wfKeys x = true ∧ wfKeysL xs = true := by
      rw [wfKeysL] at hwf
      simpa [Bool.and_eq_true] using hwf
    have hErrTail : ∀ y ∈ xs, BlockErr y := fun y hy => hErr y (List.mem_cons_of_mem _ hy)
    rw [ysizeL_cons] at hdf
    obtain ⟨df, rfl⟩ : ∃ df, dfuel = df + 1 := ⟨dfuel - 1, by omega⟩
    have hdftail : 2 * ysizeL xs + 1 ≤ df := by omega
    rw [dumpJobF_seq_cons] at hfuel ⊢
    by_cases hxd : m + 1 < lvl + 1 + vDepth x
    · by_cases hx : isInline x = true
      · have hv1 : vDepth x = 1 := vDepth_isInline hx
        have htd : tooDeep opts (lvl + 1) = true := tooDeep_eq_true hm (by omega)
        rw [if_pos hx] at hfuel ⊢
        rw [List.cons_append, List.nil_append] at hfuel
        rw [List.cons_append, List.nil_append]
        simp only [List.length_cons, List.length_append] at hfuel
        obtain ⟨f, rfl⟩ : ∃ f, fuel = f + 1 := ⟨fuel - 1, by omega⟩
        exact ⟨_, parseF_seq_step_inline_deep opts f lvl i (seqItemSplit_dashSpace _)
          htd _ acc ws⟩
      · rw [if_neg hx] at hfuel ⊢
        rw [List.cons_append] at hfuel
        rw [List.cons_append, List.cons_append, List.append_assoc]
        simp only [List.length_cons, List.length_append] at hfuel
        obtain ⟨f, rfl⟩ : ∃ f, fuel = f + 1 := ⟨fuel - 1, by omega⟩
        have hdox : 2 * ysize x ≤ df := by omega
        obtain ⟨t1, r1, hhead, _⟩ := dumpOne_head .insertion (i + 2) hdox
        have hrest2 : ∀ p, (dumpJobF .insertion df (.seq i xs) ++ rest).head? = some p →
            p.1 < i + 2 := by
          intro p hp
          cases xs with
          | nil =>
            rw [dumpSeq_nil_any, List.nil_append] at hp
            have := hrest p hp
            omega
          | cons y ys =>
            obtain ⟨t2, r2, o2, hh2, _⟩ := dumpSeq_head .insertion i df y ys (by
              have := ysize_pos y
              rw [ysizeL_cons] at hdftail
              omega)
            rw [hh2, List.cons_append] at hp
            simp only [List.head?_cons, Option.some.injEq] at hp
            rw [← hp]
            omega
        have hlen1 : (dumpJobF .insertion df (.one (i + 2) x)).length = r1.length + 1 := by
          rw [hhead]
          simp
        have hfx : 2 * (dumpJobF .insertion df (.one (i + 2) x)).length +
            2 * (dumpJobF .insertion df (.seq i xs) ++ rest).length + 3 ≤ f := by
          simp only [List.length_append]
          rw [hlen1] at hfuel ⊢
          omega
        obtain ⟨te, hstep⟩ := hErr x (List.mem_cons_self _ _) opts m f df (i + 2) (lvl + 1)
          (dumpJobF .insertion df (.seq i xs) ++ rest) ws hm hwx.1 hxd hdox hfx hrest2
        rw [hhead, List.cons_append] at hstep ⊢
        exact ⟨te, parseF_seq_step_nested_err opts f lvl i seqItemSplit_dashNil
          (by omega) t1 (r1 ++ (dumpJobF .insertion df (.seq i xs) ++ rest)) acc ws hstep⟩
    · have hdx : depthFits opts (lvl + 1) x := depthFits_of_bound hm (by omega)
      have hviolTail : ∃ y ∈ xs, m + 1 < lvl + 1 + vDepth y := by
        obtain ⟨y, hy, hyv⟩ := hviol
        rcases List.mem_cons.mp hy with he | hy'
        · subst he; omega
        · exact ⟨y, hy', hyv⟩
      by_cases hx : isInline x = true
      · rw [if_pos hx] at hfuel ⊢
        rw [List.cons_append, List.nil_append] at hfuel
        rw [List.cons_append, List.nil_append, List.cons_append]
        simp only [List.length_cons, List.length_append] at hfuel
        obtain ⟨f, rfl⟩ : ∃ f, fuel = f + 1 := ⟨fuel - 1, by omega⟩
        have hfueltail :
            2 * (dumpJobF .insertion df (.seq i xs)).length + 2 * rest.length + 2 ≤ f := by
          omega
        rw [parseF_seq_step_inline opts f lvl i (seqItemSplit_dashSpace _)
          (tooDeep_eq_false hdx) (parseScalarPos_scalarChars x hx)]
        exact ih hErrTail hwx.2 f df i lvl rest (x :: acc) ws hviolTail hdftail
          hfueltail hrest
      · rw [if_neg hx] at hfuel ⊢
        rw [List.cons_append] at hfuel
        rw [List.cons_append, List.cons_append, List.append_assoc]
        simp only [List.length_cons, List.length_append] at hfuel
        obtain ⟨f, rfl⟩ : ∃ f, fuel = f + 1 := ⟨fuel - 1, by omega⟩
        have hdox : 2 * ysize x ≤ df := by omega
        obtain ⟨t1, r1, hhead, _⟩ := dumpOne_head .insertion (i + 2) hdox
        have hrest2 : ∀ p, (dumpJobF .insertion df (.seq i xs) ++ rest).head? = some p →
            p.1 < i + 2 := by
          intro p hp
          cases xs with
          | nil =>
            rw [dumpSeq_nil_any, List.nil_append] at hp
            have := hrest p hp
            omega
          | cons y ys =>
            obtain ⟨t2, r2, o2, hh2, _⟩ := dumpSeq_head .insertion i df y ys (by
              have := ysize_pos y
              rw [ysizeL_cons] at hdftail
              omega)
            rw [hh2, List.cons_append] at hp
            simp only [List.head?_cons, Option.some.injEq] at hp
            rw [← hp]
            omega
        have hlen1 : (dumpJobF .insertion df (.one (i + 2) x)).length = r1.length + 1 := by
          rw [hhead]
          simp
        have hfx : 2 * (dumpJobF .insertion df (.one (i + 2) x)).length +
            2 * (dumpJobF .insertion df (.seq i xs) ++ rest).length + 3 ≤ f := by
          simp only [List.length_append]
          rw [hlen1] at hfuel ⊢
          omega
        have hstep := blockInv_any x opts f df (i + 2) (lvl + 1)
          (dumpJobF .insertion df (.seq i xs) ++ rest) ws hwx.1 hdx hdox hfx hrest2
        have hfueltail :
            2 * (dumpJobF .insertion df (.seq i xs)).length + 2 * rest.length + 2 ≤ f := by
          simp only [List.length_append] at hfx
          omega
        rw [hhead, List.cons_append] at hstep ⊢
        rw [parseF_seq_step_nested opts f lvl i seqItemSplit_dashNil (by omega) t1
          (r1 ++ (dumpJobF .insertion df (.seq i xs) ++ rest)) acc ws hstep]
        exact ih hErrTail hwx.2 f df i lvl rest (x :: acc) ws hviolTail hdftail
          hfueltail hrest

theorem mapItems_err (opts : LoadOpts) {m : Nat} (hm : opts.maxDepth = some m) :
    ∀ (ps : List (String × YValue)), (∀ q ∈ ps, BlockErr q.2) → wfKeysP ps = true →
    ∀ (fuel dfuel i lvl : Nat) (rest : List (Nat × Chars)) (acc : List (String × YValue))
      (ws : List Warning),
      (∃ q ∈ ps, m + 1 < lvl + 1 + vDepth q.2) →
      (acc.map Prod.fst ++ ps.map Prod.fst).Nodup →
      2 * ysizeP ps + 1 ≤ dfuel →
      2 * (dumpJobF .insertion dfuel (.pairs i ps)).length + 2 * rest.length + 2 ≤ fuel →
      (∀ p, rest.head? = some p → p.1 < i) →
      ∃ t, parseF opts fuel
          (.mapItems lvl i (dumpJobF .insertion dfuel (.pairs i ps) ++ rest) acc) ws =
        .error (.perr ⟨.depthKind, "maximum load depth exceeded", t⟩) := by
  intro ps
  induction ps with
  | nil =>
    intro _ _ fuel dfuel i lvl rest acc ws hviol _ _ _ _
    obtain ⟨q, hq, _⟩ := hviol
    cases hq
  | cons p ps ih =>
    obtain ⟨k, v⟩ := p
    intro hErr hwf fuel dfuel i lvl rest acc ws hviol hkeys hdf hfuel hrest
    have hys := ysize_pos v
    have hwx : wfKeys v = true ∧ wfKeysP ps = true := by
      rw [wfKeysP] at hwf
      simpa [Bool.and_eq_true] using hwf
    have hErrTail : ∀ q ∈ ps, BlockErr q.2 := fun q hq => hErr q (List.mem_cons_of_mem _ hq)
    have hfresh : ∀ q ∈ acc, q.1 ≠ k := by
      intro q hq he
      rw [List.nodup_append] at hkeys
      exact hkeys.2.2 (List.mem_map_of_mem Prod.fst hq)
        (by rw [he]; simp)
    have hkeystail : ((List.map Prod.fst ((k, v) :: acc)) ++ ps.map Prod.fst).Nodup := by
      have hperm : (acc.map Prod.fst ++ k :: ps.map Prod.fst).Perm
          (k :: (acc.map Prod.fst ++ ps.map Prod.fst)) := List.perm_middle
      have h1 : (acc.map Prod.fst ++ ((k, v) :: ps).map Prod.fst) =
          acc.map Prod.fst ++ k :: ps.map Prod.fst := by simp
      rw [h1] at hkeys
      have := hperm.nodup hkeys
      simpa using this
    rw [ysizeP_cons, show ((k, v) : String × YValue).2 = v from rfl] at hdf
    obtain ⟨df, rfl⟩ : ∃ df, dfuel = df + 1 := ⟨dfuel - 1, by omega⟩
    have hdftail : 2 * ysizeP ps + 1 ≤ df := by omega
    rw [dumpJobF_pairs_cons] at hfuel ⊢
    by_cases hxd : m + 1 < lvl + 1 + vDepth v
    · by_cases hv : isInline v = true
      · have hv1 : vDepth v = 1 := vDepth_isInline hv
        have htd : tooDeep opts (lvl + 1) = true := tooDeep_eq_true hm (by omega)
        rw [if_pos hv] at hfuel ⊢
        rw [List.cons_append, List.nil_append] at hfuel
        rw [List.cons_append, List.nil_append]
        simp only [List.length_cons, List.length_append] at hfuel
        obtain ⟨f, rfl⟩ : ∃ f, fuel = f + 1 := ⟨fuel - 1, by omega⟩
        exact ⟨_, parseF_map_step_inline_deep opts f lvl i
          (parseKeySplit_keyChars k (' ' :: scalarChars v)) htd _ acc ws⟩
      · rw [if_neg hv] at hfuel ⊢
        rw [List.cons_append] at hfuel
        rw [List.cons_append, List.cons_append, List.append_assoc]
        simp only [List.length_cons, List.length_append] at hfuel
        obtain ⟨f, rfl⟩ : ∃ f, fuel = f + 1 := ⟨fuel - 1, by omega⟩
        have hdov : 2 * ysize v ≤ df := by omega
        obtain ⟨t1, r1, hhead, _⟩ := dumpOne_head .insertion (i + 2) hdov
        have hrest2 : ∀ q, (dumpJobF .insertion df (.pairs i ps) ++ rest).head? = some q →
            q.1 < i + 2 := by
          intro q hq
          cases ps with
          | nil =>
            rw [dumpPairs_nil_any, List.nil_append] at hq
            have := hrest q hq
            omega
          | cons p2 ps2 =>
            obtain ⟨k2, v2⟩ := p2
            obtain ⟨t2, r2, tl2, hh2, _, _⟩ := dumpPairs_head .insertion i df k2 v2 ps2 (by
              have := ysize_pos v2
              rw [ysizeP_cons] at hdftail
              omega)
            rw [hh2, List.cons_append] at hq
            simp only [List.head?_cons, Option.some.injEq] at hq
            rw [← hq]
            omega
        have hlen1 : (dumpJobF .insertion df (.one (i + 2) v)).length = r1.length + 1 := by
          rw [hhead]
          simp
        have hfv : 2 * (dumpJobF .insertion df (.one (i + 2) v)).length +
            2 * (dumpJobF .insertion df (.pairs i ps) ++ rest).length + 3 ≤ f := by
          simp only [List.length_append]
          rw [hlen1] at hfuel ⊢
          omega
        obtain ⟨te, hstep⟩ := hErr (k, v) (List.mem_cons_self _ _) opts m f df (i + 2)
          (lvl + 1) (dumpJobF .insertion df (.pairs i ps) ++ rest) ws hm hwx.1 hxd hdov
          hfv hrest2
        rw [hhead, List.cons_append] at hstep ⊢
        exact ⟨te, parseF_map_step_nested_err opts f lvl i
          (show parseKeySplit (keyChars k ++ [':']) = some (k, []) from
            parseKeySplit_keyChars k []) (by omega) t1
          (r1 ++ (dumpJobF .insertion df (.pairs i ps) ++ rest)) acc ws hstep⟩
    · have hdv : depthFits opts (lvl + 1) v := depthFits_of_bound hm (by omega)
      have hviolTail : ∃ q ∈ ps, m + 1 < lvl + 1 + vDepth q.2 := by
        obtain ⟨q, hq, hqv⟩ := hviol
        rcases List.mem_cons.mp hq with he | hq'
        · rw [he, show ((k, v) : String × YValue).2 = v from rfl] at hqv
          omega
        · exact ⟨q, hq', hqv⟩
      by_cases hv : isInline v = true
      · rw [if_pos hv] at hfuel ⊢
        rw [List.cons_append, List.nil_append] at hfuel
        rw [List.cons_append, List.nil_append, List.cons_append]
        simp only [List.length_cons, List.length_append] at hfuel
        obtain ⟨f, rfl⟩ : ∃ f, fuel = f + 1 := ⟨fuel - 1, by omega⟩
        have hfueltail :
            2 * (dumpJobF .insertion df (.pairs i ps)).length + 2 * rest.length + 2 ≤ f := by
          omega
        have ha := addPair_fresh opts hfresh v ws (keyChars k ++ ':' :: ' ' :: scalarChars v)
        rw [parseF_map_step_inline opts f lvl i
          (parseKeySplit_keyChars k (' ' :: scalarChars v)) (tooDeep_eq_false hdv)
          (scalarChars_ne_folded hv) (parseScalarPos_scalarChars v hv) ha]
        exact ih hErrTail hwx.2 f df i lvl rest ((k, v) :: acc) ws hviolTail hkeystail
          hdftail hfueltail hrest
      · rw [if_neg hv] at hfuel ⊢
        rw [List.cons_append] at hfuel
        rw [List.cons_append, List.cons_append, List.append_assoc]
        simp only [List.length_cons, List.length_append] at hfuel
        obtain ⟨f, rfl⟩ : ∃ f, fuel = f + 1 := ⟨fuel - 1, by omega⟩
        have hdov : 2 * ysize v ≤ df := by omega
        obtain ⟨t1, r1, hhead, _⟩ := dumpOne_head .insertion (i + 2) hdov
        have hrest2 : ∀ q, (dumpJobF .insertion df (.pairs i ps) ++ rest).head? = some q →
            q.1 < i + 2 := by
          intro q hq
          cases ps with
          | nil =>
            rw [dumpPairs_nil_any, List.nil_append] at hq
            have := hrest q hq
            omega
          | cons p2 ps2 =>
            obtain ⟨k2, v2⟩ := p2
            obtain ⟨t2, r2, tl2, hh2, _, _⟩ := dumpPairs_head .insertion i df k2 v2 ps2 (by
              have := ysize_pos v2
              rw [ysizeP_cons] at hdftail
              omega)
            rw [hh2, List.cons_append] at hq
            simp only [List.head?_cons, Option.some.injEq] at hq
            rw [← hq]
            omega
        have hlen1 : (dumpJobF .insertion df (.one (i + 2) v)).length = r1.length + 1 := by
          rw [hhead]
          simp
        have hfv : 2 * (dumpJobF .insertion df (.one (i + 2) v)).length +
            2 * (dumpJobF .insertion df (.pairs i ps) ++ rest).length + 3 ≤ f := by
          simp only [List.length_append]
          rw [hlen1] at hfuel ⊢
          omega
        have hstep := blockInv_any v opts f df (i + 2) (lvl + 1)
          (dumpJobF .insertion df (.pairs i ps) ++ rest) ws hwx.1 hdv hdov hfv hrest2
        have hfueltail :
            2 * (dumpJobF .insertion df (.pairs i ps)).length + 2 * rest.length + 2 ≤ f := by
          simp only [List.length_append] at hfv
          omega
        rw [hhead, List.cons_append] at hstep ⊢
        have ha := addPair_fresh opts hfresh v ws (keyChars k ++ [':'])
        rw [parseF_map_step_nested opts f lvl i
          (show parseKeySplit (keyChars k ++ [':']) = some (k, []) from
            parseKeySplit_keyChars k []) (by omega) t1
          (r1 ++ (dumpJobF .insertion df (.pairs i ps) ++ rest)) hstep ha]
        exact ih hErrTail hwx.2 f df i lvl rest ((k, v) :: acc) ws hviolTail hkeystail
          hdftail hfueltail hrest

theorem blockErr_all : ∀ (N : Nat) (v : YValue), ysize v ≤ N → BlockErr v := by
  intro N
  induction N with
  | zero =>
    intro v hv
    have := ysize_pos v
    omega
  | succ N ihN =>
    intro v hN opts m fuel dfuel i lvl rest ws hm hwf hdeepv hdfuel hfuel hrest
    have h1 := ysize_pos v
    obtain ⟨df, rfl⟩ : ∃ df, dfuel = df + 1 := ⟨dfuel - 1, by omega⟩
    by_cases htd : tooDeep opts lvl = true
    · obtain ⟨t0, r0, hh0, _⟩ :=
        @dumpOne_head .insertion v i (df + 1) (by omega)
      have hlen0 : 1 ≤ (dumpJobF .insertion (df + 1) (.one i v)).length := by
        rw [hh0]
        simp
      obtain ⟨f, rfl⟩ : ∃ f, fuel = f + 1 := ⟨fuel - 1, by omega⟩
      exact ⟨_, parseF_block_deep opts f lvl i _ ws htd⟩
    · have htd2 : tooDeep opts lvl = false := by simpa using htd
      have hle : lvl ≤ m := tooDeep_false_le hm htd2
      by_cases hv : isInline v = true
      · have := vDepth_isInline hv
        omega
      · match v with
        | .nullV => simp [isInline] at hv
        | .boolV _ => simp [isInline] at hv
        | .numV _ => simp [isInline] at hv
        | .strV _ => simp [isInline] at hv
        | .listV xs =>
          cases xs with
          | nil => simp [isInline] at hv
          | cons x xs =>
            rw [dumpJobF_one_listV .insertion df i (by simpa using hv)] at hfuel ⊢
            rw [ysize_listV, ysizeL_cons] at hdfuel hN
            rw [vDepth_listV_cons] at hdeepv
            have hysx := ysize_pos x
            obtain ⟨t, r, o, hh, hs⟩ := dumpSeq_head .insertion i df x xs (by omega)
            obtain ⟨f, rfl⟩ : ∃ f, fuel = f + 1 := ⟨fuel - 1, by omega⟩
            rw [hh, List.cons_append]
            rw [parseF_block_toSeq opts f i i htd2 hs]
            rw [← List.cons_append, ← hh]
            have hviol : ∃ y ∈ x :: xs, m + 1 < lvl + 1 + vDepth y := by
              obtain ⟨y, hy, hyv⟩ := vDepthL_mem_ge x xs
              exact ⟨y, hy, by omega⟩
            exact seqItems_err opts hm (x :: xs)
              (fun y hy => ihN y (by
                have := ysizeL_le_of_mem hy
                rw [ysizeL_cons] at this
                omega))
              (by rw [wfKeys] at hwf; exact hwf)
              f df i lvl rest [] ws hviol
              (by rw [ysizeL_cons]; omega)
              (by rw [hh] at hfuel ⊢; simp only [List.length_cons] at hfuel ⊢; omega)
              hrest
        | .mapV ps =>
          cases ps with
          | nil => simp [isInline] at hv
          | cons p ps =>
            obtain ⟨k, v2⟩ := p
            rw [dumpJobF_one_mapV .insertion df i (by simpa using hv), sortPairs_insertion]
              at hfuel ⊢
            rw [ysize_mapV, ysizeP_cons, show ((k, v2) : String × YValue).2 = v2 from rfl]
              at hdfuel hN
            rw [vDepth_mapV_cons] at hdeepv
            have hysv := ysize_pos v2
            obtain ⟨t, r, tl, hh, hkt, hs⟩ := dumpPairs_head .insertion i df k v2 ps (by omega)
            obtain ⟨f, rfl⟩ : ∃ f, fuel = f + 1 := ⟨fuel - 1, by omega⟩
            rw [hh, List.cons_append]
            rw [parseF_block_toMap opts f i i htd2 hs hkt]
            rw [← List.cons_append, ← hh]
            have hwf2 : nodupStr (((k, v2) :: ps).map Prod.fst) = true ∧
                wfKeysP ((k, v2) :: ps) = true := by
              rw [wfKeys] at hwf
              simpa [Bool.and_eq_true] using hwf
            have hviol : ∃ q ∈ (k, v2) :: ps, m + 1 < lvl + 1 + vDepth q.2 := by
              obtain ⟨q, hq, hqv⟩ := vDepthP_mem_ge (k, v2) ps
              exact ⟨q, hq, by omega⟩
            exact mapItems_err opts hm ((k, v2) :: ps)
              (fun q hq => ihN q.2 (by
                have := ysizeP_le_of_mem hq
                rw [ysizeP_cons, show ((k, v2) : String × YValue).2 = v2 from rfl] at this
                omega))
              hwf2.2
              f df i lvl rest [] ws hviol
              (by
                rw [List.map_nil, List.nil_append]
                exact (nodupStr_iff _).mp hwf2.1)
              (by
                rw [ysizeP_cons, show ((k, v2) : String × YValue).2 = v2 from rfl]
                omega)
              (by rw [hh] at hfuel ⊢; simp only [List.length_cons] at hfuel ⊢; omega)
              hrest

theorem blockErr_any (v : YValue) : BlockErr v := blockErr_all (ysize v) v le_rfl

theorem loadCore_err (opts : LoadOpts) (lines : List (Nat × Chars)) (j : Nat) (t : Chars)
    (r : List (Nat × Chars)) (e : PErr)
    (htab : lines.find? (fun p => p.2.headD 'x' == '\t') = none)
    (hl : lines = (j, t) :: r)
    (hp : parseF opts (parseFuel lines) (.block 1 j lines) [] = .error (.perr e)) :
    loadCore opts lines = .error (.perr e) := by
  subst hl
  rw [loadCore, htab]
  simp [hp]

/-- A dumped value nested beyond the loader's configured maximum makes the
load fail with the depth-exceeded fault. -/
theorem load_dumpText_deep (opts : LoadOpts) (st : DumpState) (v : YValue) (m : Nat)
    (hsk : st.sortKeys = .insertion)
    (hm : opts.maxDepth = some m)
    (hwf : wfKeys v = true)
    (hdeep : m < vDepth v) :
    ∃ e : FormatException, load opts (dumpText st v) = .error e ∧
      e.name = "FormatException" ∧ e.reason = "maximum load depth exceeded" := by
  have hgood : ∀ p ∈ dumpJobF .insertion (2 * ysize v + 2) (.one 0 v), goodTxt p.2 :=
    fun p hp => dumpJobF_good .insertion _ _ p hp
  have hdata : (String.mk (renderLines (dumpJobF .insertion (2 * ysize v + 2) (.one 0 v)))).data
      = renderLines (dumpJobF .insertion (2 * ysize v + 2) (.one 0 v)) := rfl
  have hlines : toLines (renderLines (dumpJobF .insertion (2 * ysize v + 2) (.one 0 v)))
      = dumpJobF .insertion (2 * ysize v + 2) (.one 0 v) := by
    apply toLines_renderLines
    intro p hp
    have hg := hgood p hp
    exact ⟨hg.2.2.2, hg.2.1⟩
  have htab : (dumpJobF .insertion (2 * ysize v + 2) (.one 0 v)).find?
      (fun p => p.2.headD 'x' == '\t') = none := by
    rw [List.find?_eq_none]
    intro p hp
    have hg := hgood p hp
    cases hpc : p.2 with
    | nil => simp [List.headD]
    | cons c cs =>
      have : c ≠ '\t' := by
        intro he
        apply hg.2.2.1
        rw [hpc, he]
        rfl
      simp [List.headD, this]
  obtain ⟨t, r, hh, ht⟩ :=
    @dumpOne_head .insertion v 0 (2 * ysize v + 2) (by omega)
  obtain ⟨te, herr⟩ := blockErr_any v opts m
    (parseFuel (dumpJobF .insertion (2 * ysize v + 2) (.one 0 v)))
    (2 * ysize v + 2) 0 1 [] [] hm hwf (by omega) (by omega)
    (by simp only [parseFuel, List.length_nil]; omega)
    (by intro p hp; simp at hp)
  rw [List.append_nil] at herr
  refine ⟨mkFormatException opts (dumpJobF .insertion (2 * ysize v + 2) (.one 0 v))
    ⟨.depthKind, "maximum load depth exceeded", te⟩, ?_, rfl, rfl⟩
  show loadDocLines opts (toLines (String.mk (renderLines (dumpJobF st.sortKeys (2 * ysize v + 2) (.one 0 v)))).data) = _
  rw [hsk, hdata, hlines, loadDocLines,
    loadCore_err opts _ 0 t r _ htab hh herr]

theorem loadAllGo_spec {σ : Type} (opts : LoadOpts) (cb : σ → YValue → σ) :
    ∀ (docs : List (List (Nat × Chars))) (s : σ),
      loadAllGo opts cb docs s =
        ((specOkPrefixVals (docs.map (fun d => (loadDocLines opts d).map Prod.fst))).foldl cb s,
         specFirstFault (docs.map (fun d => (loadDocLines opts d).map Prod.fst))) := by
  intro docs
  induction docs with
  | nil => intro s; rfl
  | cons d ds ih =>
    intro s
    cases hd : loadDocLines opts d with
    | ok r =>
      obtain ⟨v, ws⟩ := r
      simp only [loadAllGo, hd, List.map_cons, Except.map, specOkPrefixVals,
        specFirstFault, List.foldl]
      exact ih (cb s v)
    | error e =>
      simp only [loadAllGo, hd, List.map_cons, Except.map, specOkPrefixVals,
        specFirstFault, List.foldl]

theorem drainAdd_spec {α : Type} [DecidableEq α] :
    ∀ (l s : List α), drainAdd l s = ([], s ++ specDistinctFrom s l) := by
  intro l
  induction l with
  | nil => intro s; simp [drainAdd, specDistinctFrom]
  | cons x xs ih =>
    intro s
    rw [drainAdd, specDistinctFrom]
    by_cases hx : x ∈ s
    · rw [if_pos hx, show setAdd s x = s from by rw [setAdd, if_pos hx], ih]
    · rw [if_neg hx, show setAdd s x = s ++ [x] from by rw [setAdd, if_neg hx], ih]
      simp

theorem specDistinctFrom_append {α : Type} [DecidableEq α] :
    ∀ (l1 l2 seen : List α),
      specDistinctFrom seen (l1 ++ l2) =
        specDistinctFrom seen l1 ++
          specDistinctFrom (seen ++ specDistinctFrom seen l1) l2 := by
  intro l1
  induction l1 with
  | nil => intro l2 seen; simp [specDistinctFrom]
  | cons x xs ih =>
    intro l2 seen
    rw [List.cons_append, specDistinctFrom, specDistinctFrom]
    by_cases hx : x ∈ seen
    · rw [if_pos hx, if_pos hx, ih]
    · rw [if_neg hx, if_neg hx, ih]
      simp

theorem insertPairCmp_zero (p : String × YValue) (l : List (String × YValue)) :
    insertPairCmp (fun _ _ => (0 : Int)) p l = l ++ [p] := by
  induction l with
  | nil => rfl
  | cons q qs ih =>
    rw [insertPairCmp, if_pos (by omega), ih]
    rfl

theorem sortPairsCmp_zero_go (ps acc : List (String × YValue)) :
    ps.foldl (fun a x => insertPairCmp (fun _ _ => (0 : Int)) x a) acc = acc ++ ps := by
  induction ps generalizing acc with
  | nil => simp [List.foldl]
  | cons q qs ih =>
    rw [List.foldl, insertPairCmp_zero, ih]
    simp

/-- A comparator that never separates two keys leaves the original order
untouched: the sort is stable, with no secondary tie-break. -/
theorem sortPairsCmp_zero (ps : List (String × YValue)) :
    sortPairsCmp (fun _ _ => (0 : Int)) ps = ps := by
  rw [sortPairsCmp, sortPairsCmp_zero_go]
  rfl

/-- C1: for every value expressible in the default schema — null, boolean,
number, string, ordered list, or ordered string-keyed mapping whose mappings
all have pairwise-distinct keys — dumping the value with the default options
and loading the result yields the value back: `load(dump(v)) = v`. -/
theorem c1_round_trip (v : YValue) (hwf : wfKeys v = true) :
    ∃ txt, dump {} v = .ok txt ∧ loadD txt = .ok v := by
  refine ⟨dumpText {} v, rfl, ?_⟩
  rw [loadD, load_dumpText {} {} v rfl hwf (depthFits_none rfl 1 v)]
  rfl

theorem c1_round_trip_witness :
    wfKeys (.mapV [("k", .listV [.numV 1, .strV "x"]), ("n", .nullV)]) = true ∧
    ∃ txt, dump {} (.mapV [("k", .listV [.numV 1, .strV "x"]), ("n", .nullV)]) = .ok txt ∧
      loadD txt = .ok (.mapV [("k", .listV [.numV 1, .strV "x"]), ("n", .nullV)]) :=
  ⟨by decide, c1_round_trip _ (by decide)⟩

/-- C2: dumping `{b: 1, a: 2, c: 3}` gives exactly `"b: 1\na: 2\nc: 3\n"`
under insertion order, `"a: 2\nb: 1\nc: 3\n"` under lexicographic sorting,
and `"c: 3\nb: 1\na: 2\n"` under the reversing comparator; moreover a
comparator that reports every pair equal changes nothing, so the output
order is exactly the comparator's, with no secondary tie-break. -/
theorem c2_sort_keys :
    dumpText { sortKeys := .insertion } mTestC2 = "b: 1\na: 2\nc: 3\n" ∧
    dumpText { sortKeys := .lex } mTestC2 = "a: 2\nb: 1\nc: 3\n" ∧
    dumpText { sortKeys := .custom revCmp } mTestC2 = "c: 3\nb: 1\na: 2\n" ∧
    ∀ ps : List (String × YValue), sortPairsCmp (fun _ _ => (0 : Int)) ps = ps :=
  ⟨rfl, rfl, rfl, sortPairsCmp_zero⟩

/-- C3: in a folded block scalar a single embedded line break between two
non-blank lines becomes one space, a blank line is preserved as a literal
newline, and the fixture document `test: >` over lines `a b` and `c` loads
to the field value `"a b c\n"`. -/
theorem c3_folded_scalar (l1 l2 : Chars) (h1 : l1 ≠ []) (h2 : l2 ≠ []) :
    foldBody [l1, l2] = l1 ++ ' ' :: l2 ++ ['\n'] ∧
    foldBody [l1, [], l2] = l1 ++ '\n' :: l2 ++ ['\n'] ∧
    loadD "test: >\n  a b\n  c\n" = .ok (.mapV [("test", .strV "a b c\n")]) := by
  refine ⟨?_, ?_, rfl⟩
  · match l1, l2 with
    | c :: cs, d :: ds =>
      show foldGo (dropTrailingBlanks [c :: cs, d :: ds]) ++ ['\n'] = _
      have hdrop : dropTrailingBlanks [c :: cs, d :: ds] = [c :: cs, d :: ds] := by
        rw [dropTrailingBlanks]
        rfl
      rw [hdrop]
      show ((c :: cs) ++ ' ' :: foldGo [d :: ds]) ++ ['\n'] = _
      show ((c :: cs) ++ ' ' :: ((d :: ds) ++ foldGo [])) ++ ['\n'] = _
      simp [foldGo]
  · match l1, l2 with
    | c :: cs, d :: ds =>
      show foldGo (dropTrailingBlanks [c :: cs, [], d :: ds]) ++ ['\n'] = _
      have hdrop : dropTrailingBlanks [c :: cs, [], d :: ds] = [c :: cs, [], d :: ds] := by
        rw [dropTrailingBlanks]
        rfl
      rw [hdrop]
      show ((c :: cs) ++ foldGo [[], d :: ds]) ++ ['\n'] = _
      show ((c :: cs) ++ '\n' :: foldGo [d :: ds]) ++ ['\n'] = _
      show ((c :: cs) ++ '\n' :: ((d :: ds) ++ foldGo [])) ++ ['\n'] = _
      simp [foldGo]

theorem c3_folded_scalar_witness :
    (['a'] : Chars) ≠ [] ∧ (['c'] : Chars) ≠ [] ∧
    (foldBody [['a'], ['c']] = ['a'] ++ ' ' :: ['c'] ++ ['\n'] ∧
     foldBody [['a'], [], ['c']] = ['a'] ++ '\n' :: ['c'] ++ ['\n'] ∧
     loadD "test: >\n  a b\n  c\n" = .ok (.mapV [("test", .strV "a b c\n")])) :=
  ⟨by decide, by decide, c3_folded_scalar ['a'] ['c'] (by decide) (by decide)⟩

/-- C4: every document of the known-bad corpus makes `load` fail with a
`FormatException`-shaped error value whose `name` field is exactly
`"FormatException"` and whose formatted message contains that sample's file
name. -/
theorem c4_bad_corpus : ∀ s ∈ badCorpus, ∃ e : FormatException,
    load { filename := some s.1 } s.2 = .error e ∧
    e.name = "FormatException" ∧ List.IsInfix s.1.data e.message.data := by
  intro s hs
  simp only [badCorpus, List.mem_cons, List.not_mem_nil, or_false] at hs
  rcases hs with rfl | rfl | rfl | rfl | rfl | rfl
  all_goals exact ⟨_, rfl, rfl, by decide⟩

theorem c4_bad_corpus_witness :
    (("tabs.yaml", "\ta: 1\n") ∈ badCorpus) ∧
    ∃ e : FormatException,
      load { filename := some ("tabs.yaml", "\ta: 1\n").1 } ("tabs.yaml", "\ta: 1\n").2 =
        .error e ∧
      e.name = "FormatException" ∧
      List.IsInfix ("tabs.yaml", "\ta: 1\n").1.data e.message.data :=
  ⟨by decide, c4_bad_corpus _ (by decide)⟩

/-- C5: constructing a document whose first entry anchors a mapping and whose
later entries alias that anchor yields one shared heap cell: every occurrence
is the same reference `refC 0`, dereferencing it gives the anchored mapping,
and after mutating the cell the new contents are observed through that shared
reference — the aliases are never independent copies. -/
theorem c5_alias_shared (k1 k2 k3 nm : String) (ps newPs : List (String × String)) :
    ∃ st : CState,
      constructDoc {} [(k1, .mapN (some nm) ps), (k2, .aliasN nm), (k3, .aliasN nm)] =
        .ok ([(k1, .refC 0), (k2, .refC 0), (k3, .refC 0)], st) ∧
      derefC st.heap (.refC 0) = some ps ∧
      derefC (heapSet st.heap 0 newPs) (.refC 0) = some newPs := by
  refine ⟨⟨[ps], [(nm, 0)]⟩, ?_, rfl, rfl⟩
  simp [constructDoc, constructNode, List.lookup]

/-- C6: a value nested deeper than the configured maximum depth makes `load`
of its dump fail with the depth-exceeded `FormatException` (the §5 guard, not
the call stack, stops the recursion), and `dump` under the same bound refuses
the value with its depth-exceeded error. -/
theorem c6_depth_guard (v : YValue) (m : Nat) (hwf : wfKeys v = true)
    (hm : m < vDepth v) :
    (∃ e : FormatException, load { maxDepth := some m } (dumpText {} v) = .error e ∧
      e.name = "FormatException" ∧ e.reason = "maximum load depth exceeded") ∧
    dump { maxDepth := some m } v =
      .error ⟨"FormatException", "maximum dump depth exceeded", ⟨0, 0, ""⟩,
        "DepthExceededError: maximum dump depth exceeded"⟩ := by
  constructor
  · exact load_dumpText_deep { maxDepth := some m } {} v m rfl rfl hwf hm
  · rw [dump]
    simp [hm]

theorem c6_depth_guard_witness :
    wfKeys (.listV [.listV [.numV 1]]) = true ∧ 2 < vDepth (.listV [.listV [.numV 1]]) ∧
    ((∃ e : FormatException,
        load { maxDepth := some 2 } (dumpText {} (.listV [.listV [.numV 1]])) = .error e ∧
        e.name = "FormatException" ∧ e.reason = "maximum load depth exceeded") ∧
      dump { maxDepth := some 2 } (.listV [.listV [.numV 1]]) =
        .error ⟨"FormatException", "maximum dump depth exceeded", ⟨0, 0, ""⟩,
          "DepthExceededError: maximum dump depth exceeded"⟩) :=
  ⟨by decide, by decide, c6_depth_guard (.listV [.listV [.numV 1]]) 2 (by decide) (by decide)⟩

/-- C7: `loadAll` hands the per-document callback the value of each document
of the stream exactly once, in document order, stopping at the first faulting
document: the final state is the fold of the callback over the values of the
documents before the first fault, and the returned fault is that first
fault. -/
theorem c7_load_all_stream {σ : Type} (opts : LoadOpts) (text : String)
    (cb : σ → YValue → σ) (s0 : σ) :
    loadAll opts text cb s0 =
      ((specOkPrefixVals (docResults opts text)).foldl cb s0,
       specFirstFault (docResults opts text)) := by
  rw [loadAll, docResults]
  exact loadAllGo_spec opts cb _ s0

/-- C8: under leniency a duplicate mapping key does not abort the load: it is
routed to the supplied `onWarning` hook and the load succeeds (overwriting
the earlier value) with the duplicate-key warning recorded; when the hook
itself raises, the load fails with exactly the hook's exception. -/
theorem c8_duplicate_key_hook :
    load { onWarning := some (fun _ => .ok ()) } "a: 1\na: 2\n" =
      .ok (.mapV [("a", .numV 2)], [⟨.duplicateKey, "a"⟩]) ∧
    ∀ e : FormatException,
      load { onWarning := some (fun _ => .error e) } "a: 1\na: 2\n" = .error e :=
  ⟨rfl, fun _ => rfl⟩

/-- C9: `union(a, b)` returns the distinct elements of `a` followed by those
of `b`, in order of first occurrence, and drains both input arrays: the final
states of `a` and `b` are both empty. -/
theorem c9_union_drains {α : Type} [DecidableEq α] (a b : List α) :
    union a b = (specDistinct (a ++ b), [], []) := by
  show ((drainAdd b (drainAdd a []).2).2, (drainAdd a []).1, (drainAdd b (drainAdd a []).2).1)
      = (specDistinct (a ++ b), [], [])
  rw [drainAdd_spec a [], specDistinct, specDistinctFrom_append]
  rw [show (([], ([] : List α) ++ specDistinctFrom [] a) : List α × List α).2 =
    [] ++ specDistinctFrom [] a from rfl]
  rw [drainAdd_spec b ([] ++ specDistinctFrom [] a)]
  simp

/-- C10: the decoder `isMaybe(d)` succeeds immediately on exactly `undefined`
and exactly `null`, whatever the inner decoder is; on every other input it
returns the inner decoder's result, with each error wrapped so its message is
extended by `" OR must be null OR must be undefined"`. -/
theorem c10_is_maybe (d : JSValue → Except (List DecoderError) JSValue) (v : JSValue)
    (h1 : v ≠ .undef) (h2 : v ≠ .nullJ) :
    isMaybe d {} .undef = .ok .undef ∧
    isMaybe d {} .nullJ = .ok .nullJ ∧
    isMaybe d {} v = (match d v with
      | .ok r => .ok r
      | .error errs => .error (errs.map (fun e => .mk v
          (e.message ++ " OR must be null OR must be undefined") "isMaybe" (some e)))) := by
  refine ⟨rfl, rfl, ?_⟩
  cases hd : d v with
  | ok r => simp [isMaybe, isExactly, h1, h2, hd]
  | error errs => simp [isMaybe, isExactly, h1, h2, hd, applyOptionsToDecoderErrors]

theorem c10_is_maybe_witness :
    ((.numJ 5 : JSValue) ≠ .undef) ∧ ((.numJ 5 : JSValue) ≠ .nullJ) ∧
    (isMaybe (isExactly (.boolJ true)) {} .undef = .ok .undef ∧
     isMaybe (isExactly (.boolJ true)) {} .nullJ = .ok .nullJ ∧
     isMaybe (isExactly (.boolJ true)) {} (.numJ 5) =
       (match isExactly (.boolJ true) (.numJ 5) with
        | .ok r => .ok r
        | .error errs => .error (errs.map (fun e => .mk (.numJ 5)
            (e.message ++ " OR must be null OR must be undefined") "isMaybe" (some e))))) :=
  ⟨by decide, by decide,
    c10_is_maybe (isExactly (.boolJ true)) (.numJ 5) (by decide) (by decide)⟩

end DenoStd
